import Mathlib

/-!
Verification development for the centroid tracker of `frontend/src/components/Tracker.jsx`.

The tracker is a small stateful engine: a `CentroidTracker` holds an insertion-ordered
id → centroid map (`objects`), an id → missed-count map (`disappeared`), a fresh-id
counter (`nextObjectID`) and two configuration thresholds.  `update` consumes one
frame's bounding boxes and matches them greedily to live objects by centroid distance.

JS `Map`s are modelled as insertion-ordered association lists; `Map.set` updates in
place when the key is present (keeping iteration order) and appends otherwise, exactly
as in JavaScript.  Euclidean distances (`Math.hypot`) are compared against each other
and against `maxDistance` only; since `Real.sqrt` is strictly monotone on nonnegative
arguments, all comparisons are embedded exactly using squared integer distances
(`distSq`), with the threshold test `hypot > maxDistance` becoming
`maxDistance < 0 ∨ maxDistance² < distSq` (`gtDist`).
-/

namespace ObjDet

/-- A 2D integer point, the model of a pixel-coordinate pair `[cx, cy]`. -/
abbrev Point := Int × Int

/-- An axis-aligned box `[x1, y1, x2, y2]`, the shape of the rect arrays fed to `update`. -/
structure Rect where
  x1 : Int
  y1 : Int
  x2 : Int
  y2 : Int
deriving DecidableEq, Repr

/-- Centroid of a rect: `cx = Math.round((r[0] + r[2]) / 2)` and likewise for `cy`.
JS `Math.round x = ⌊x + 1/2⌋`, so for integers `a, b` we get `⌊(a + b + 1) / 2⌋`. -/
def centroidOf (r : Rect) : Point :=
  ((r.x1 + r.x2 + 1).fdiv 2, (r.y1 + r.y2 + 1).fdiv 2)

/-- `Map.get`: lookup in a JS `Map` modelled as an insertion-ordered association list. -/
def mapGet (m : List (Nat × α)) (k : Nat) : Option α :=
  (m.find? (fun p => p.1 == k)).map Prod.snd

/-- `Map.set`: update in place when the key exists (iteration order kept), append otherwise. -/
def mapSet (m : List (Nat × α)) (k : Nat) (v : α) : List (Nat × α) :=
  if m.any (fun p => p.1 == k) then
    m.map (fun p => if p.1 == k then (k, v) else p)
  else m ++ [(k, v)]

/-- `Map.delete`. -/
def mapDelete (m : List (Nat × α)) (k : Nat) : List (Nat × α) :=
  m.filter (fun p => p.1 != k)

/-- `Map.keys()`, in iteration (insertion) order. -/
def keysOf (m : List (Nat × α)) : List Nat := m.map Prod.fst

/-- The tracker state: `nextObjectID`, `objects` (id → centroid), `disappeared`
(id → count) and the two construction-time thresholds. -/
structure CentroidTracker where
  nextObjectID : Nat
  objects : List (Nat × Point)
  disappeared : List (Nat × Nat)
  maxDisappeared : Int
  maxDistance : Int
deriving Repr, DecidableEq

/-- The constructor: `new CentroidTracker(maxDisappeared, maxDistance)`.  It performs
no validation of the thresholds; it just stores them. -/
def CentroidTracker.init (maxDisappeared maxDistance : Int) : CentroidTracker :=
  { nextObjectID := 1, objects := [], disappeared := [], maxDisappeared := maxDisappeared,
    maxDistance := maxDistance }

/-- `register(centroid)`: assign the next id, store the centroid, zero the miss count. -/
def register (t : CentroidTracker) (c : Point) : CentroidTracker :=
  { t with
    nextObjectID := t.nextObjectID + 1
    objects := mapSet t.objects t.nextObjectID c
    disappeared := mapSet t.disappeared t.nextObjectID 0 }

/-- `deregister(id)`: drop the id from both maps. -/
def deregister (t : CentroidTracker) (id : Nat) : CentroidTracker :=
  { t with
    objects := mapDelete t.objects id
    disappeared := mapDelete t.disappeared id }

/-- Squared Euclidean distance; the exact embedding of `Math.hypot(dx, dy)` for
comparison purposes. -/
def distSq (p q : Point) : Int :=
  (p.1 - q.1) * (p.1 - q.1) + (p.2 - q.2) * (p.2 - q.2)

/-- `hypot dx dy > d`, expressed on the squared distance `s = dx² + dy²`:
true iff `d < 0` or `d² < s`. -/
def gtDist (s d : Int) : Bool :=
  decide (d < 0) || decide (d * d < s)

/-- The distance matrix `D[i][j]` between live-object centroids and input centroids. -/
def distMatrix (objCentroids inputCentroids : List Point) : List (List Int) :=
  objCentroids.map (fun oc => inputCentroids.map (fun ic => distSq oc ic))

/-- All matrix entries `((r, c), D[r][c])` in row-major scan order. -/
def allEntries (D : List (List Int)) : List ((Nat × Nat) × Int) :=
  (D.enum.map (fun rrow => rrow.2.enum.map (fun cv => ((rrow.1, cv.1), cv.2)))).flatten

/-- The entries whose row and column are not yet assigned: the candidates of one
iteration of the matching loop. -/
def unassignedEntries (D : List (List Int)) (aR aC : List Nat) : List ((Nat × Nat) × Int) :=
  (allEntries D).filter (fun e => !(aR.contains e.1.1) && !(aC.contains e.1.2))

/-- The inner scan of the matching loop: a fold keeping the current best entry,
replacing it only on a strictly smaller value (`if (D[r][c] < minVal)`), so the first
minimum in scan order wins. -/
def scanBest (best : Option (α × Int)) : List (α × Int) → Option (α × Int)
  | [] => best
  | e :: es =>
    scanBest
      (match best with
       | none => some e
       | some b => if e.2 < b.2 then some e else some b) es

/-- One full minimum-scan over a candidate list, starting from `minVal = Infinity`. -/
def pickMin (es : List (α × Int)) : Option (α × Int) := scanBest none es

/-- The `while (true)` matching loop: pick the global minimum among unassigned
entries, stop when none remains (`minVal === Infinity`) or the minimum exceeds
`maxDistance`, otherwise commit the match and continue.  Each iteration assigns a
fresh row, so `D.length` iterations always suffice; `fuel` makes that explicit. -/
def greedyLoop (md : Int) (D : List (List Int)) : Nat → List Nat → List Nat → List (Nat × Nat)
  | 0, _, _ => []
  | fuel + 1, aR, aC =>
    match pickMin (unassignedEntries D aR aC) with
    | none => []
    | some e =>
      if gtDist e.2 md then []
      else (e.1.1, e.1.2) :: greedyLoop md D fuel (e.1.1 :: aR) (e.1.2 :: aC)

/-- The committed matches of one `update` call in the general case. -/
def matchesOf (t : CentroidTracker) (rects : List Rect) : List (Nat × Nat) :=
  let inputs := rects.map centroidOf
  let D := distMatrix (t.objects.map Prod.snd) inputs
  greedyLoop t.maxDistance D D.length [] []

/-- The body of the `matches.forEach` loop: refresh the matched object's centroid and
zero its miss count. -/
def matchStep (oids : List Nat) (inputs : List Point) (s : CentroidTracker) (rc : Nat × Nat) :
    CentroidTracker :=
  let objectID := oids.getD rc.1 0
  { s with
    objects := mapSet s.objects objectID (inputs.getD rc.2 (0, 0))
    disappeared := mapSet s.disappeared objectID 0 }

/-- The miss-aging step shared by the empty-frame branch and the unmatched-row loop:
increment the count, then deregister when it exceeds `maxDisappeared`. -/
def bumpMiss (s : CentroidTracker) (id : Nat) : CentroidTracker :=
  let d := (mapGet s.disappeared id).getD 0
  let s1 := { s with disappeared := mapSet s.disappeared id (d + 1) }
  if s.maxDisappeared < (d : Int) + 1 then deregister s1 id else s1

/-- The general case of `update` (live objects and input boxes both present), applied
to an already-computed match list: commit matches, age unmatched rows, register
unmatched columns. -/
def applyGeneral (t : CentroidTracker) (rects : List Rect) (ms : List (Nat × Nat)) :
    CentroidTracker :=
  let inputs := rects.map centroidOf
  let oids := keysOf t.objects
  let t1 := ms.foldl (matchStep oids inputs) t
  let unmatchedRows := (List.range t.objects.length).filter (fun r => !((ms.map Prod.fst).contains r))
  let unmatchedCols := (List.range inputs.length).filter (fun c => !((ms.map Prod.snd).contains c))
  let t2 := unmatchedRows.foldl (fun s r => bumpMiss s (oids.getD r 0)) t1
  unmatchedCols.foldl (fun s c => register s (inputs.getD c (0, 0))) t2

/-- `update(rects)`: the engine's single operation.  Branches exactly as the source:
no live objects → register everything; no boxes → age everyone; otherwise run the
greedy matcher and apply its result. -/
def update (t : CentroidTracker) (rects : List Rect) : CentroidTracker :=
  if t.objects.length = 0 then
    rects.foldl (fun s r => register s (centroidOf r)) t
  else if rects.length = 0 then
    (keysOf t.disappeared).foldl bumpMiss t
  else
    applyGeneral t rects (matchesOf t rects)

/-- A whole run: fold `update` over a list of frames. -/
def runFrames (t : CentroidTracker) (frames : List (List Rect)) : CentroidTracker :=
  frames.foldl update t

/-- The re-association scan of `tick`: over `objects.entries()` in iteration order,
keep the id of the first strictly-smaller distance to the detection's centroid. -/
def bestTrackId (objects : List (Nat × Point)) (c : Point) : Option Nat :=
  (pickMin (objects.map (fun p => (p.1, distSq p.2 c)))).map Prod.fst

/-- `tick`'s per-detection loop: each rect is re-associated with `bestTrackId` of its
own centroid. -/
def reassociate (objects : List (Nat × Point)) (rects : List Rect) : List (Option Nat) :=
  rects.map (fun r => bestTrackId objects (centroidOf r))

/-- The state invariant of reachable trackers: keys are duplicate-free, `objects` and
`disappeared` carry the same keys in the same order, and every live id is below the
fresh-id counter. -/
def WF (t : CentroidTracker) : Prop :=
  (keysOf t.objects).Nodup ∧ keysOf t.objects = keysOf t.disappeared ∧
    ∀ id ∈ keysOf t.objects, id < t.nextObjectID

instance : DecidablePred WF := fun t => by
  unfold WF; infer_instance

end ObjDet

namespace ObjDet

/-! ### Association-map lemmas (the JS `Map` model) -/

theorem mapGet_nil (k : Nat) : mapGet ([] : List (Nat × α)) k = none := rfl

theorem mapGet_cons (k k' : Nat) (v : α) (m : List (Nat × α)) :
    mapGet ((k', v) :: m) k = if k' = k then some v else mapGet m k := by
  by_cases h : k' = k
  · subst h
    simp [mapGet, List.find?]
  · have hb : (k' == k) = false := beq_eq_false_iff_ne.mpr h
    simp [mapGet, List.find?, hb, h]

theorem mem_keysOf_iff (m : List (Nat × α)) (k : Nat) :
    k ∈ keysOf m ↔ ∃ v, mapGet m k = some v := by
  induction m with
  | nil => simp [keysOf, mapGet]
  | cons p m ih =>
    obtain ⟨k', v⟩ := p
    simp only [keysOf, List.map_cons, List.mem_cons, mapGet_cons]
    by_cases h : k' = k
    · simp [h]
    · simp only [if_neg h]
      constructor
      · rintro (h' | h')
        · exact absurd h'.symm h
        · exact (ih).mp (by simpa [keysOf] using h')
      · intro h'
        exact Or.inr (by simpa [keysOf] using ih.mpr h')

theorem mapGet_eq_none_of_not_mem {m : List (Nat × α)} {k : Nat} (h : k ∉ keysOf m) :
    mapGet m k = none := by
  cases hm : mapGet m k with
  | none => rfl
  | some v => exact absurd ((mem_keysOf_iff m k).mpr ⟨v, hm⟩) h

theorem not_mem_keysOf_of_get_none {m : List (Nat × α)} {k : Nat} (h : mapGet m k = none) :
    k ∉ keysOf m := by
  intro hmem
  obtain ⟨v, hv⟩ := (mem_keysOf_iff m k).mp hmem
  rw [h] at hv; cases hv

theorem mapSet_any_iff (m : List (Nat × α)) (k : Nat) :
    (m.any (fun p => p.1 == k)) = true ↔ k ∈ keysOf m := by
  simp only [List.any_eq_true, keysOf, List.mem_map]
  constructor
  · rintro ⟨p, hp, he⟩
    exact ⟨p, hp, by simpa using he⟩
  · rintro ⟨p, hp, he⟩
    exact ⟨p, hp, by simpa using he⟩

theorem mapSet_of_mem {m : List (Nat × α)} {k : Nat} (v : α) (h : k ∈ keysOf m) :
    mapSet m k v = m.map (fun p => if p.1 == k then (k, v) else p) := by
  simp only [mapSet, if_pos ((mapSet_any_iff m k).mpr h)]

theorem mapSet_of_not_mem {m : List (Nat × α)} {k : Nat} (v : α) (h : k ∉ keysOf m) :
    mapSet m k v = m ++ [(k, v)] := by
  simp only [mapSet]
  rw [if_neg]
  intro hc
  exact h ((mapSet_any_iff m k).mp hc)

theorem keysOf_append (m₁ m₂ : List (Nat × α)) :
    keysOf (m₁ ++ m₂) = keysOf m₁ ++ keysOf m₂ := by
  simp [keysOf]

theorem keysOf_map_update (m : List (Nat × α)) (k : Nat) (v : α) :
    keysOf (m.map (fun p => if p.1 == k then (k, v) else p)) = keysOf m := by
  simp only [keysOf, List.map_map]
  apply List.map_congr_left
  intro p _
  by_cases h : p.1 = k
  · simp [h]
  · simp [h]

theorem keysOf_mapSet_of_mem {m : List (Nat × α)} {k : Nat} (v : α) (h : k ∈ keysOf m) :
    keysOf (mapSet m k v) = keysOf m := by
  rw [mapSet_of_mem v h, keysOf_map_update]

theorem keysOf_mapSet_of_not_mem {m : List (Nat × α)} {k : Nat} (v : α) (h : k ∉ keysOf m) :
    keysOf (mapSet m k v) = keysOf m ++ [k] := by
  rw [mapSet_of_not_mem v h, keysOf_append]; rfl

theorem mapGet_append_of_not_mem_left {m₁ : List (Nat × α)} {k : Nat} (m₂ : List (Nat × α))
    (h : k ∉ keysOf m₁) : mapGet (m₁ ++ m₂) k = mapGet m₂ k := by
  induction m₁ with
  | nil => rfl
  | cons p m ih =>
    obtain ⟨k', v⟩ := p
    simp only [keysOf, List.map_cons, List.mem_cons] at h
    push_neg at h
    rw [List.cons_append, mapGet_cons, if_neg (fun hc => h.1 hc.symm)]
    exact ih (by simpa [keysOf] using h.2)

theorem mapGet_append_left {m₁ : List (Nat × α)} {k : Nat} (m₂ : List (Nat × α))
    (h : k ∈ keysOf m₁) : mapGet (m₁ ++ m₂) k = mapGet m₁ k := by
  induction m₁ with
  | nil => simp [keysOf] at h
  | cons p m ih =>
    obtain ⟨k', v⟩ := p
    rw [List.cons_append, mapGet_cons, mapGet_cons]
    by_cases he : k' = k
    · simp [he]
    · rw [if_neg he, if_neg he]
      simp only [keysOf, List.map_cons, List.mem_cons] at h
      rcases h with h | h
      · exact absurd h.symm he
      · exact ih (by simpa [keysOf] using h)

theorem mapGet_map_update_self (m : List (Nat × α)) {k : Nat} (v : α) (h : k ∈ keysOf m) :
    mapGet (m.map (fun p => if p.1 == k then (k, v) else p)) k = some v := by
  induction m with
  | nil => simp [keysOf] at h
  | cons p m ih =>
    obtain ⟨k₀, v₀⟩ := p
    by_cases he : k₀ = k
    · subst he
      simp only [List.map_cons]
      rw [if_pos (by simp), mapGet_cons, if_pos rfl]
    · simp only [List.map_cons]
      rw [if_neg (by simpa using he), mapGet_cons, if_neg he]
      apply ih
      simp only [keysOf, List.map_cons, List.mem_cons] at h
      rcases h with h | h
      · exact absurd h.symm he
      · simpa [keysOf] using h

theorem mapGet_mapSet_self (m : List (Nat × α)) (k : Nat) (v : α) :
    mapGet (mapSet m k v) k = some v := by
  by_cases h : k ∈ keysOf m
  · rw [mapSet_of_mem v h, mapGet_map_update_self m v h]
  · rw [mapSet_of_not_mem v h, mapGet_append_of_not_mem_left _ h, mapGet_cons, if_pos rfl]

theorem mapGet_map_update_ne (m : List (Nat × α)) {k k' : Nat} (v : α) (h : k' ≠ k) :
    mapGet (m.map (fun p => if p.1 == k then (k, v) else p)) k' = mapGet m k' := by
  induction m with
  | nil => rfl
  | cons p m ih =>
    obtain ⟨k₀, v₀⟩ := p
    by_cases he : k₀ = k
    · subst he
      simp only [List.map_cons]
      rw [if_pos (by simp), mapGet_cons, mapGet_cons,
        if_neg (fun hc => h hc.symm), if_neg (fun hc => h hc.symm), ih]
    · simp only [List.map_cons]
      rw [if_neg (by simpa using he), mapGet_cons, mapGet_cons, ih]

theorem mapGet_mapSet_ne (m : List (Nat × α)) {k k' : Nat} (v : α) (h : k' ≠ k) :
    mapGet (mapSet m k v) k' = mapGet m k' := by
  by_cases hm : k ∈ keysOf m
  · rw [mapSet_of_mem v hm, mapGet_map_update_ne m v h]
  · rw [mapSet_of_not_mem v hm]
    by_cases h1 : k' ∈ keysOf m
    · rw [mapGet_append_left _ h1]
    · rw [mapGet_append_of_not_mem_left _ h1, mapGet_cons, if_neg (fun hc => h hc.symm),
        mapGet_eq_none_of_not_mem h1, mapGet_nil]


theorem mapGet_mapDelete_self (m : List (Nat × α)) (k : Nat) :
    mapGet (mapDelete m k) k = none := by
  induction m with
  | nil => rfl
  | cons p m ih =>
    obtain ⟨k₀, v₀⟩ := p
    by_cases he : k₀ = k
    · subst he
      simpa [mapDelete, List.filter] using ih
    · have hb : (k₀ != k) = true := by simp [bne, beq_eq_false_iff_ne.mpr he]
      simp only [mapDelete, List.filter, hb]
      rw [show List.filter (fun p => p.1 != k) m = mapDelete m k from rfl, mapGet_cons, if_neg he]
      exact ih

theorem mapGet_mapDelete_ne (m : List (Nat × α)) {k k' : Nat} (h : k' ≠ k) :
    mapGet (mapDelete m k) k' = mapGet m k' := by
  induction m with
  | nil => rfl
  | cons p m ih =>
    obtain ⟨k₀, v₀⟩ := p
    by_cases he : k₀ = k
    · subst he
      have hb : (k₀ != k₀) = false := by simp
      simp only [mapDelete, List.filter, hb]
      rw [show List.filter (fun p => p.1 != k₀) m = mapDelete m k₀ from rfl, ih, mapGet_cons,
        if_neg (fun hc => h hc.symm)]
    · have hb : (k₀ != k) = true := by simp [bne, beq_eq_false_iff_ne.mpr he]
      simp only [mapDelete, List.filter, hb]
      rw [show List.filter (fun p => p.1 != k) m = mapDelete m k from rfl, mapGet_cons,
        mapGet_cons, ih]

theorem keysOf_mapDelete (m : List (Nat × α)) (k : Nat) :
    keysOf (mapDelete m k) = (keysOf m).filter (fun x => x != k) := by
  induction m with
  | nil => rfl
  | cons p m ih =>
    obtain ⟨k₀, v₀⟩ := p
    by_cases he : k₀ = k
    · subst he
      have hb : (k₀ != k₀) = false := by simp
      simp only [mapDelete, List.filter, keysOf, List.map_cons, hb]
      exact ih
    · have hb : (k₀ != k) = true := by simp [bne, beq_eq_false_iff_ne.mpr he]
      simp only [mapDelete, List.filter, keysOf, List.map_cons, hb]
      simpa [keysOf] using ih

theorem nodup_keysOf_mapSet {m : List (Nat × α)} (hn : (keysOf m).Nodup) (k : Nat) (v : α) :
    (keysOf (mapSet m k v)).Nodup := by
  by_cases h : k ∈ keysOf m
  · rwa [keysOf_mapSet_of_mem v h]
  · rw [keysOf_mapSet_of_not_mem v h]
    simpa using List.Nodup.append hn (List.nodup_singleton k) (by simpa using h)

theorem nodup_keysOf_mapDelete {m : List (Nat × α)} (hn : (keysOf m).Nodup) (k : Nat) :
    (keysOf (mapDelete m k)).Nodup := by
  rw [keysOf_mapDelete]
  exact hn.filter _

theorem mem_keysOf_mapDelete {m : List (Nat × α)} {k k' : Nat} :
    k' ∈ keysOf (mapDelete m k) ↔ k' ∈ keysOf m ∧ k' ≠ k := by
  rw [keysOf_mapDelete]
  simp [List.mem_filter]

theorem mapGet_mem {m : List (Nat × α)} {k : Nat} {v : α} (h : mapGet m k = some v) :
    (k, v) ∈ m := by
  induction m with
  | nil => cases h
  | cons p m ih =>
    obtain ⟨k₀, v₀⟩ := p
    rw [mapGet_cons] at h
    by_cases he : k₀ = k
    · rw [if_pos he] at h
      cases h
      exact he ▸ List.mem_cons_self _ _
    · rw [if_neg he] at h
      exact List.mem_cons_of_mem _ (ih h)

theorem mem_keysOf_of_mem {m : List (Nat × α)} {p : Nat × α} (h : p ∈ m) :
    p.1 ∈ keysOf m := by
  simp only [keysOf, List.mem_map]
  exact ⟨p, h, rfl⟩

theorem mapGet_of_mem_nodup {m : List (Nat × α)} (hn : (keysOf m).Nodup) {k : Nat} {v : α}
    (h : (k, v) ∈ m) : mapGet m k = some v := by
  induction m with
  | nil => cases h
  | cons p m ih =>
    obtain ⟨k₀, v₀⟩ := p
    simp only [keysOf, List.map_cons, List.nodup_cons] at hn
    rcases List.mem_cons.mp h with h | h
    · cases h
      rw [mapGet_cons, if_pos rfl]
    · rw [mapGet_cons]
      have hk : k ≠ k₀ := by
        intro hc
        apply hn.1
        have h2 : k₀ ∈ keysOf m := by
          rw [← hc]
          exact mem_keysOf_of_mem h
        simpa [keysOf] using h2
      rw [if_neg (fun hc => hk hc.symm)]
      exact ih hn.2 h

theorem mapGet_isSome_iff (m : List (Nat × α)) (k : Nat) :
    (mapGet m k).isSome = true ↔ k ∈ keysOf m := by
  rw [mem_keysOf_iff]
  cases h : mapGet m k <;> simp [h]


/-! ### Characterization of the strict-minimum scan

`scanBest`, the embedding of `for (...) if (D[r][c] < minVal)`, returns the first
entry attaining the minimum value, in scan order.  `firstMin` is an equivalent
head-recursive formulation used to set up the induction, and `IsFirstMin` is the
declarative characterization. -/

/-- Head-recursive first-minimum of `b :: es`: ties are won by the earlier entry. -/
def firstMin (b : α × Int) : List (α × Int) → α × Int
  | [] => b
  | e :: es => if (firstMin e es).2 < b.2 then firstMin e es else b

/-- `e` occurs in `es`, has minimal value, and every strictly earlier entry has a
strictly larger value. -/
def IsFirstMin (es : List (α × Int)) (e : α × Int) : Prop :=
  ∃ i, es[i]? = some e ∧ (∀ (j : Nat) (f : α × Int), es[j]? = some f → e.2 ≤ f.2) ∧
    ∀ (j : Nat) (f : α × Int), j < i → es[j]? = some f → e.2 < f.2

theorem firstMin_shift (b e : α × Int) (es : List (α × Int)) :
    firstMin b (e :: es) = firstMin (if e.2 < b.2 then e else b) es := by
  cases es with
  | nil =>
    by_cases h : e.2 < b.2 <;> simp [firstMin, h]
  | cons f fs =>
    simp only [firstMin]
    by_cases h1 : (firstMin f fs).2 < e.2 <;> by_cases h2 : e.2 < b.2 <;>
      by_cases h3 : (firstMin f fs).2 < b.2 <;>
      simp [firstMin, h1, h2, h3] <;> omega

theorem scanBest_some (es : List (α × Int)) : ∀ b, scanBest (some b) es = some (firstMin b es) := by
  induction es with
  | nil => intro b; rfl
  | cons e es ih =>
    intro b
    rw [firstMin_shift]
    rw [show scanBest (some b) (e :: es) = scanBest (some (if e.2 < b.2 then e else b)) es by
      simp only [scanBest]
      congr 1
      by_cases h : e.2 < b.2 <;> simp [h]]
    exact ih _

theorem pickMin_cons (e : α × Int) (es : List (α × Int)) :
    pickMin (e :: es) = some (firstMin e es) := by
  rw [show pickMin (e :: es) = scanBest (some e) es from rfl]
  exact scanBest_some es e

theorem pickMin_eq_none_iff (es : List (α × Int)) : pickMin es = none ↔ es = [] := by
  cases es with
  | nil => simp [pickMin, scanBest]
  | cons e es => simp [pickMin_cons]

theorem firstMin_isFirstMin (b : α × Int) (es : List (α × Int)) :
    IsFirstMin (b :: es) (firstMin b es) := by
  induction es generalizing b with
  | nil =>
    refine ⟨0, rfl, ?_, ?_⟩
    · intro j f hf
      cases j with
      | zero => cases hf; exact le_refl _
      | succ j => simp at hf
    · intro j f hj hf
      omega
  | cons e es ih =>
    obtain ⟨i, hi, hmin, hstrict⟩ := ih e
    simp only [firstMin]
    by_cases h : (firstMin e es).2 < b.2
    · rw [if_pos h]
      refine ⟨i + 1, by simpa using hi, ?_, ?_⟩
      · intro j f hf
        cases j with
        | zero => cases hf; exact le_of_lt h
        | succ j => exact hmin j f (by simpa using hf)
      · intro j f hj hf
        cases j with
        | zero => cases hf; exact h
        | succ j => exact hstrict j f (by omega) (by simpa using hf)
    · rw [if_neg h]
      refine ⟨0, rfl, ?_, ?_⟩
      · intro j f hf
        cases j with
        | zero => cases hf; exact le_refl _
        | succ j =>
          exact le_trans (not_lt.mp h) (hmin j f (by simpa using hf))
      · intro j f hj hf
        omega

theorem pickMin_isFirstMin {es : List (α × Int)} {e : α × Int} (h : pickMin es = some e) :
    IsFirstMin es e := by
  cases es with
  | nil => cases h
  | cons b es =>
    rw [pickMin_cons] at h
    cases h
    exact firstMin_isFirstMin b es

theorem IsFirstMin.mem {es : List (α × Int)} {e : α × Int} (h : IsFirstMin es e) : e ∈ es := by
  obtain ⟨i, hi, -, -⟩ := h
  obtain ⟨hlt, rfl⟩ := List.getElem?_eq_some.mp hi
  exact List.getElem_mem hlt

theorem IsFirstMin.le_of_mem {es : List (α × Int)} {e f : α × Int} (h : IsFirstMin es e)
    (hf : f ∈ es) : e.2 ≤ f.2 := by
  obtain ⟨i, hi, hmin, -⟩ := h
  obtain ⟨j, hj, hje⟩ := List.getElem_of_mem hf
  exact hmin j f (by rw [List.getElem?_eq_getElem hj, hje])

theorem pickMin_mem {es : List (α × Int)} {e : α × Int} (h : pickMin es = some e) : e ∈ es :=
  (pickMin_isFirstMin h).mem


/-! ### Entry lists of the distance matrix -/

theorem mem_allEntries_iff {D : List (List Int)} {e : (Nat × Nat) × Int} :
    e ∈ allEntries D ↔ ∃ row, D[e.1.1]? = some row ∧ row[e.1.2]? = some e.2 := by
  obtain ⟨⟨r, c⟩, v⟩ := e
  simp only [allEntries, List.mem_flatten, List.mem_map]
  constructor
  · rintro ⟨-, ⟨⟨⟨r0, row⟩, hrow, rfl⟩, hmem⟩⟩
    simp only [List.mem_map] at hmem
    obtain ⟨⟨c0, v0⟩, hcv, he⟩ := hmem
    obtain ⟨⟨rfl, rfl⟩, rfl⟩ : (r0 = r ∧ c0 = c) ∧ v0 = v := by
      simpa using he
    exact ⟨row, List.mem_enum_iff_getElem?.mp hrow, List.mem_enum_iff_getElem?.mp hcv⟩
  · rintro ⟨row, hr, hc⟩
    refine ⟨(row.enum.map (fun cv => ((r, cv.1), cv.2))), ⟨⟨(r, row), ?_, rfl⟩, ?_⟩⟩
    · exact List.mem_enum_iff_getElem?.mpr hr
    · simp only [List.mem_map]
      exact ⟨(c, v), List.mem_enum_iff_getElem?.mpr hc, rfl⟩

theorem mem_unassignedEntries_iff {D : List (List Int)} {aR aC : List Nat}
    {e : (Nat × Nat) × Int} :
    e ∈ unassignedEntries D aR aC ↔ e ∈ allEntries D ∧ e.1.1 ∉ aR ∧ e.1.2 ∉ aC := by
  simp [unassignedEntries, List.mem_filter]

theorem distMatrix_getElem? {os is : List Point} {r : Nat} {row : List Int}
    (h : (distMatrix os is)[r]? = some row) :
    ∃ o, os[r]? = some o ∧ row = is.map (distSq o) := by
  simp only [distMatrix, List.getElem?_map] at h
  cases ho : os[r]? with
  | none => rw [ho] at h; cases h
  | some o =>
    rw [ho] at h
    cases h
    exact ⟨o, rfl, rfl⟩

theorem mem_allEntries_distMatrix_iff {os is : List Point} {r c : Nat} {v : Int} :
    ((r, c), v) ∈ allEntries (distMatrix os is) ↔
      ∃ o i, os[r]? = some o ∧ is[c]? = some i ∧ v = distSq o i := by
  rw [mem_allEntries_iff]
  constructor
  · rintro ⟨row, hr, hc⟩
    obtain ⟨o, ho, rfl⟩ := distMatrix_getElem? hr
    simp only [List.getElem?_map] at hc
    cases hi : is[c]? with
    | none => rw [hi] at hc; cases hc
    | some i =>
      rw [hi] at hc
      cases hc
      exact ⟨o, i, ho, rfl, rfl⟩

  · rintro ⟨o, i, ho, hi, rfl⟩
    refine ⟨is.map (distSq o), ?_, ?_⟩
    · simp [distMatrix, List.getElem?_map, ho]
    · rw [List.getElem?_map, hi]
      rfl

theorem distMatrix_length (os is : List Point) : (distMatrix os is).length = os.length := by
  simp [distMatrix]

theorem distSq_nonneg (p q : Point) : 0 ≤ distSq p q := by
  have h1 : 0 ≤ (p.1 - q.1) * (p.1 - q.1) := mul_self_nonneg _
  have h2 : 0 ≤ (p.2 - q.2) * (p.2 - q.2) := mul_self_nonneg _
  simpa [distSq] using add_nonneg h1 h2

theorem distSq_eq_zero_iff {p q : Point} : distSq p q = 0 ↔ p = q := by
  constructor
  · intro h
    have h1 : 0 ≤ (p.1 - q.1) * (p.1 - q.1) := mul_self_nonneg _
    have h2 : 0 ≤ (p.2 - q.2) * (p.2 - q.2) := mul_self_nonneg _
    have hx : (p.1 - q.1) * (p.1 - q.1) = 0 := by
      simp only [distSq] at h
      omega
    have hy : (p.2 - q.2) * (p.2 - q.2) = 0 := by
      simp only [distSq] at h
      omega
    have hx0 := mul_self_eq_zero.mp hx
    have hy0 := mul_self_eq_zero.mp hy
    have : p.1 = q.1 := by omega
    have : p.2 = q.2 := by omega
    exact Prod.ext (by omega) (by omega)
  · rintro rfl
    simp [distSq]

theorem gtDist_zero {md : Int} (h : 0 ≤ md) : gtDist 0 md = false := by
  simp only [gtDist, Bool.or_eq_false_iff, decide_eq_false_iff_not, not_lt]
  exact ⟨h, mul_nonneg h h⟩


/-! ### The greedy matching loop satisfies its declarative specification -/

/-- Declarative description of the matching loop, run from assigned-row set `aR` and
assigned-column set `aC`: either no candidate entry remains, or the row-major first
minimum exceeds `maxDistance` and the loop stops, or that minimum is committed and
the loop continues with its row and column assigned. -/
inductive GreedyFrom (md : Int) (D : List (List Int)) :
    List Nat → List Nat → List (Nat × Nat) → Prop where
  | stopEmpty : ∀ {aR aC : List Nat}, unassignedEntries D aR aC = [] → GreedyFrom md D aR aC []
  | stopFar : ∀ {aR aC : List Nat} (e : (Nat × Nat) × Int),
      IsFirstMin (unassignedEntries D aR aC) e → gtDist e.2 md = true → GreedyFrom md D aR aC []
  | step : ∀ {aR aC : List Nat} {ms : List (Nat × Nat)} (e : (Nat × Nat) × Int),
      IsFirstMin (unassignedEntries D aR aC) e → gtDist e.2 md = false →
      GreedyFrom md D (e.1.1 :: aR) (e.1.2 :: aC) ms →
      GreedyFrom md D aR aC ((e.1.1, e.1.2) :: ms)

theorem mem_of_nodup_length_le {aR : List Nat} {n : Nat} (hn : aR.Nodup)
    (hb : ∀ r ∈ aR, r < n) (hl : n ≤ aR.length) : ∀ r < n, r ∈ aR := by
  have hsub : aR ⊆ List.range n := fun r hr => List.mem_range.mpr (hb r hr)
  have hsp := List.subperm_of_subset hn hsub
  have hperm := hsp.perm_of_length_le (by simpa using hl)
  intro r hr
  exact hperm.mem_iff.mpr (List.mem_range.mpr hr)

theorem unassignedEntries_eq_nil {D : List (List Int)} {aR : List Nat} (aC : List Nat)
    (h : ∀ r < D.length, r ∈ aR) : unassignedEntries D aR aC = [] := by
  rw [unassignedEntries, List.filter_eq_nil_iff]
  intro e he
  obtain ⟨row, hr, -⟩ := mem_allEntries_iff.mp he
  have hlt : e.1.1 < D.length := (List.getElem?_eq_some.mp hr).1
  simp [h _ hlt]

theorem greedyLoop_zero (md : Int) (D : List (List Int)) (aR aC : List Nat) :
    greedyLoop md D 0 aR aC = [] := rfl

theorem greedyLoop_succ_none {md : Int} {D : List (List Int)} {aR aC : List Nat} (fuel : Nat)
    (h : pickMin (unassignedEntries D aR aC) = none) :
    greedyLoop md D (fuel + 1) aR aC = [] := by
  simp [greedyLoop, h]

theorem greedyLoop_succ_far {md : Int} {D : List (List Int)} {aR aC : List Nat}
    {e : (Nat × Nat) × Int} (fuel : Nat) (h : pickMin (unassignedEntries D aR aC) = some e)
    (hg : gtDist e.2 md = true) : greedyLoop md D (fuel + 1) aR aC = [] := by
  simp [greedyLoop, h, hg]

theorem greedyLoop_succ_step {md : Int} {D : List (List Int)} {aR aC : List Nat}
    {e : (Nat × Nat) × Int} (fuel : Nat) (h : pickMin (unassignedEntries D aR aC) = some e)
    (hg : gtDist e.2 md = false) :
    greedyLoop md D (fuel + 1) aR aC =
      (e.1.1, e.1.2) :: greedyLoop md D fuel (e.1.1 :: aR) (e.1.2 :: aC) := by
  simp [greedyLoop, h, hg]

theorem greedyLoop_spec (md : Int) (D : List (List Int)) :
    ∀ (fuel : Nat) (aR aC : List Nat), aR.Nodup → (∀ r ∈ aR, r < D.length) →
      D.length ≤ fuel + aR.length → GreedyFrom md D aR aC (greedyLoop md D fuel aR aC) := by
  intro fuel
  induction fuel with
  | zero =>
    intro aR aC hnd hb hl
    exact GreedyFrom.stopEmpty
      (unassignedEntries_eq_nil aC (mem_of_nodup_length_le hnd hb (by simpa using hl)))
  | succ fuel ih =>
    intro aR aC hnd hb hl
    cases hp : pickMin (unassignedEntries D aR aC) with
    | none =>
      rw [greedyLoop_succ_none fuel hp]
      exact GreedyFrom.stopEmpty ((pickMin_eq_none_iff _).mp hp)
    | some e =>
      have hfm := pickMin_isFirstMin hp
      cases hg : gtDist e.2 md with
      | true =>
        rw [greedyLoop_succ_far fuel hp hg]
        exact GreedyFrom.stopFar e hfm hg
      | false =>
        rw [greedyLoop_succ_step fuel hp hg]
        obtain ⟨hA, hr, hc⟩ := mem_unassignedEntries_iff.mp hfm.mem
        obtain ⟨row, hrow, -⟩ := mem_allEntries_iff.mp hA
        have hrlt : e.1.1 < D.length := (List.getElem?_eq_some.mp hrow).1
        refine GreedyFrom.step e hfm hg (ih (e.1.1 :: aR) (e.1.2 :: aC)
          (List.nodup_cons.mpr ⟨hr, hnd⟩) ?_ ?_)
        · intro r hmem
          rcases List.mem_cons.mp hmem with h | h
          · exact h ▸ hrlt
          · exact hb r h
        · simp only [List.length_cons]
          omega

/-- The value `D[r][c]` read off the matrix with out-of-range defaults. -/
def entryValAt (D : List (List Int)) (r c : Nat) : Int := ((D[r]?.getD [])[c]?).getD 0

theorem greedyLoop_strong (md : Int) (D : List (List Int)) :
    ∀ (fuel : Nat) (aR aC : List Nat),
      (∀ rc ∈ greedyLoop md D fuel aR aC, rc.1 ∉ aR ∧ rc.2 ∉ aC ∧
        ((rc.1, rc.2), entryValAt D rc.1 rc.2) ∈ allEntries D ∧
        gtDist (entryValAt D rc.1 rc.2) md = false) ∧
      ((greedyLoop md D fuel aR aC).map Prod.fst).Nodup ∧
      ((greedyLoop md D fuel aR aC).map Prod.snd).Nodup := by
  intro fuel
  induction fuel with
  | zero => intro aR aC; simp [greedyLoop]
  | succ fuel ih =>
    intro aR aC
    cases hp : pickMin (unassignedEntries D aR aC) with
    | none => rw [greedyLoop_succ_none fuel hp]; simp
    | some e =>
      cases hg : gtDist e.2 md with
      | true => rw [greedyLoop_succ_far fuel hp hg]; simp
      | false =>
        rw [greedyLoop_succ_step fuel hp hg]
        obtain ⟨hA, hr, hc⟩ := mem_unassignedEntries_iff.mp (pickMin_mem hp)
        obtain ⟨row, hrow, hcol⟩ := mem_allEntries_iff.mp hA
        have hval : entryValAt D e.1.1 e.1.2 = e.2 := by
          rw [entryValAt, hrow, Option.getD_some, hcol]
          rfl
        obtain ⟨ihmem, ihfst, ihsnd⟩ := ih (e.1.1 :: aR) (e.1.2 :: aC)
        refine ⟨?_, ?_, ?_⟩
        · intro rc hrc
          rcases List.mem_cons.mp hrc with h | h
          · subst h
            refine ⟨hr, hc, ?_, ?_⟩
            · rw [hval]
              exact hA
            · rw [hval]
              exact hg
          · obtain ⟨h1, h2, h3, h4⟩ := ihmem rc h
            exact ⟨fun hx => h1 (List.mem_cons_of_mem _ hx),
              fun hx => h2 (List.mem_cons_of_mem _ hx), h3, h4⟩
        · simp only [List.map_cons, List.nodup_cons]
          refine ⟨?_, ihfst⟩
          intro hx
          obtain ⟨rc, hrc, hrc1⟩ := List.mem_map.mp hx
          exact (ihmem rc hrc).1 (hrc1 ▸ List.mem_cons_self _ _)
        · simp only [List.map_cons, List.nodup_cons]
          refine ⟨?_, ihsnd⟩
          intro hx
          obtain ⟨rc, hrc, hrc1⟩ := List.mem_map.mp hx
          exact (ihmem rc hrc).2.1 (hrc1 ▸ List.mem_cons_self _ _)


theorem matchesOf_strong (t : CentroidTracker) (rects : List Rect) :
    (∀ rc ∈ matchesOf t rects, rc.1 < t.objects.length ∧ rc.2 < rects.length ∧
      ∃ o i, (t.objects.map Prod.snd)[rc.1]? = some o ∧
        (rects.map centroidOf)[rc.2]? = some i ∧
        gtDist (distSq o i) t.maxDistance = false) ∧
    ((matchesOf t rects).map Prod.fst).Nodup ∧ ((matchesOf t rects).map Prod.snd).Nodup := by
  obtain ⟨hmem, hfst, hsnd⟩ := greedyLoop_strong t.maxDistance
    (distMatrix (t.objects.map Prod.snd) (rects.map centroidOf))
    (distMatrix (t.objects.map Prod.snd) (rects.map centroidOf)).length [] []
  refine ⟨?_, hfst, hsnd⟩
  intro rc hrc
  obtain ⟨-, -, hA, hg⟩ := hmem rc hrc
  obtain ⟨o, i, ho, hi, hv⟩ := mem_allEntries_distMatrix_iff.mp hA
  have h1 : rc.1 < t.objects.length := by
    have := (List.getElem?_eq_some.mp ho).1
    simpa using this
  have h2 : rc.2 < rects.length := by
    have := (List.getElem?_eq_some.mp hi).1
    simpa using this
  exact ⟨h1, h2, o, i, ho, hi, hv ▸ hg⟩

/-- Claim C1: in the general case of `update` (at least one live object and at least
one input box), matches are selected greedily: repeatedly take the globally smallest
remaining distance-matrix entry `D[i][j]` over rows and columns not yet assigned
(ties between equal minima broken by the first occurrence in row-major scan order,
`IsFirstMin`), stopping as soon as that minimum exceeds `max_distance`
(`GreedyFrom`); and `update` applies exactly these matches. -/
theorem update_general_case_greedy (t : CentroidTracker) (rects : List Rect)
    (hobj : t.objects ≠ []) (hrects : rects ≠ []) :
    GreedyFrom t.maxDistance (distMatrix (t.objects.map Prod.snd) (rects.map centroidOf))
      [] [] (matchesOf t rects) ∧
    update t rects = applyGeneral t rects (matchesOf t rects) := by
  constructor
  · exact greedyLoop_spec t.maxDistance
      (distMatrix (t.objects.map Prod.snd) (rects.map centroidOf))
      (distMatrix (t.objects.map Prod.snd) (rects.map centroidOf)).length [] []
      List.nodup_nil (by simp) (by simp)
  · simp only [update]
    rw [if_neg (by simpa [List.length_eq_zero] using hobj),
      if_neg (by simpa [List.length_eq_zero] using hrects)]

/-- A concrete tracker state used by witnesses: one live object with id 1 at the
origin, thresholds 10 and 50. -/
def wTracker : CentroidTracker :=
  { nextObjectID := 2, objects := [(1, (0, 0))], disappeared := [(1, 0)],
    maxDisappeared := 10, maxDistance := 50 }

/-- A concrete one-box frame used by witnesses. -/
def wRects : List Rect := [⟨3, 0, 3, 0⟩]

/-- Witness for C1: the greedy-match description holds at a concrete state. -/
theorem update_general_case_greedy_witness :
    GreedyFrom wTracker.maxDistance
      (distMatrix (wTracker.objects.map Prod.snd) (wRects.map centroidOf)) [] []
      (matchesOf wTracker wRects) ∧
    update wTracker wRects = applyGeneral wTracker wRects (matchesOf wTracker wRects) :=
  update_general_case_greedy wTracker wRects (by decide) (by decide)


/-! ### Effects of `register` and register folds -/

/-- All keys of both maps are below the fresh-id counter (the part of `WF` that
`register` needs). -/
def Bounded (s : CentroidTracker) : Prop :=
  (∀ id ∈ keysOf s.objects, id < s.nextObjectID) ∧
    ∀ id ∈ keysOf s.disappeared, id < s.nextObjectID

theorem register_objects {s : CentroidTracker} (c : Point)
    (h : ∀ id ∈ keysOf s.objects, id < s.nextObjectID) :
    (register s c).objects = s.objects ++ [(s.nextObjectID, c)] := by
  have : s.nextObjectID ∉ keysOf s.objects := fun hmem => lt_irrefl _ (h _ hmem)
  simp only [register]
  exact mapSet_of_not_mem c this

theorem register_disappeared {s : CentroidTracker} (c : Point)
    (h : ∀ id ∈ keysOf s.disappeared, id < s.nextObjectID) :
    (register s c).disappeared = s.disappeared ++ [(s.nextObjectID, 0)] := by
  have : s.nextObjectID ∉ keysOf s.disappeared := fun hmem => lt_irrefl _ (h _ hmem)
  simp only [register]
  exact mapSet_of_not_mem 0 this

theorem registerFold (cs : List Point) : ∀ (s : CentroidTracker), Bounded s →
    ((cs.foldl register s).objects = s.objects ++ List.enumFrom s.nextObjectID cs) ∧
    ((cs.foldl register s).disappeared =
      s.disappeared ++ (List.enumFrom s.nextObjectID cs).map (fun p => (p.1, 0))) ∧
    (cs.foldl register s).nextObjectID = s.nextObjectID + cs.length ∧
    (cs.foldl register s).maxDisappeared = s.maxDisappeared ∧
    (cs.foldl register s).maxDistance = s.maxDistance := by
  induction cs with
  | nil => intro s _; simp
  | cons c cs ih =>
    intro s hB
    have hobj := register_objects c hB.1
    have hdis := register_disappeared c hB.2
    have hB1 : Bounded (register s c) := by
      constructor
      · intro id hid
        rw [hobj, keysOf_append] at hid
        rcases List.mem_append.mp hid with h | h
        · exact lt_trans (hB.1 id h) (by simp [register])
        · simp only [keysOf, List.map_cons, List.map_nil, List.mem_singleton] at h
          simp [register, h]
      · intro id hid
        rw [hdis, keysOf_append] at hid
        rcases List.mem_append.mp hid with h | h
        · exact lt_trans (hB.2 id h) (by simp [register])
        · simp only [keysOf, List.map_cons, List.map_nil, List.mem_singleton] at h
          simp [register, h]
    obtain ⟨io, id, inx, imd, imdist⟩ := ih (register s c) hB1
    have hnx : (register s c).nextObjectID = s.nextObjectID + 1 := rfl
    refine ⟨?_, ?_, ?_, imd, imdist⟩
    · rw [List.foldl_cons, io, hobj, hnx, List.append_assoc]
      rfl
    · rw [List.foldl_cons, id, hdis, hnx, List.append_assoc]
      rfl
    · rw [List.foldl_cons, inx, hnx]
      simp only [List.length_cons]
      omega

theorem mapGet_enumFrom (cs : List α) : ∀ (n j : Nat),
    mapGet (List.enumFrom n cs) (n + j) = cs[j]? := by
  induction cs with
  | nil => intro n j; simp [mapGet]
  | cons c cs ih =>
    intro n j
    rw [show List.enumFrom n (c :: cs) = (n, c) :: List.enumFrom (n + 1) cs from rfl,
      mapGet_cons]
    cases j with
    | zero => simp
    | succ j =>
      rw [if_neg (by omega)]
      have := ih (n + 1) j
      rw [show n + 1 + j = n + (j + 1) by omega] at this
      rw [this]
      simp

theorem mapGet_enumFrom_lt (cs : List α) : ∀ (n k : Nat), k < n →
    mapGet (List.enumFrom n cs) k = none := by
  intro n k hk
  apply mapGet_eq_none_of_not_mem
  rw [keysOf, List.enumFrom_map_fst, List.mem_range'_1]
  omega


theorem update_no_objects (t : CentroidTracker) (rects : List Rect) (h0 : t.objects = [])
    (hB : Bounded t) :
    (update t rects).objects = List.enumFrom t.nextObjectID (rects.map centroidOf) ∧
    (update t rects).disappeared = t.disappeared ++
      (List.enumFrom t.nextObjectID (rects.map centroidOf)).map (fun p => (p.1, 0)) ∧
    (update t rects).nextObjectID = t.nextObjectID + rects.length ∧
    (update t rects).maxDisappeared = t.maxDisappeared ∧
    (update t rects).maxDistance = t.maxDistance := by
  have hfold : update t rects = (rects.map centroidOf).foldl register t := by
    rw [update, if_pos (by simp [h0])]
    exact (List.foldl_map centroidOf register rects t).symm
  obtain ⟨io, idis, inx, imd, imdist⟩ := registerFold (rects.map centroidOf) t hB
  rw [hfold, io, idis, inx, imd, imdist, h0]
  simp

/-- Claim C7 (amended): the constructor performs no validation.  Any thresholds,
non-positive ones included, are stored verbatim, and the resulting engine is fully
usable: its first `update` registers every input box under ids `1, 2, …` in input
order. -/
theorem init_performs_no_validation (md mdist : Int) (rects : List Rect) :
    (CentroidTracker.init md mdist).maxDisappeared = md ∧
    (CentroidTracker.init md mdist).maxDistance = mdist ∧
    (update (CentroidTracker.init md mdist) rects).objects =
      List.enumFrom 1 (rects.map centroidOf) := by
  refine ⟨rfl, rfl, ?_⟩
  have := update_no_objects (CentroidTracker.init md mdist) rects rfl
    (by constructor <;> simp [CentroidTracker.init, keysOf])
  exact this.1

/-- Counterexample to claim C7 as stated: constructing the engine with the
non-positive thresholds `maxDisappeared = -1` and `maxDistance = -1` does not fail;
it produces a usable engine whose `update` registers a box normally. -/
theorem init_rejects_nothing_counterexample :
    (CentroidTracker.init (-1) (-1)).maxDisappeared = -1 ∧
    (CentroidTracker.init (-1) (-1)).maxDistance = -1 ∧
    (update (CentroidTracker.init (-1) (-1)) [⟨4, 4, 6, 6⟩]).objects = [(1, (5, 5))] := by
  decide


/-! ### Effects of the match fold -/

theorem matchStep_nextObjectID (oids : List Nat) (inputs : List Point) (s : CentroidTracker)
    (rc : Nat × Nat) : (matchStep oids inputs s rc).nextObjectID = s.nextObjectID := rfl

theorem matchStep_get_ne (oids : List Nat) (inputs : List Point) (s : CentroidTracker)
    (rc : Nat × Nat) {id : Nat} (h : id ≠ oids.getD rc.1 0) :
    mapGet (matchStep oids inputs s rc).objects id = mapGet s.objects id ∧
    mapGet (matchStep oids inputs s rc).disappeared id = mapGet s.disappeared id :=
  ⟨mapGet_mapSet_ne _ _ h, mapGet_mapSet_ne _ _ h⟩

theorem matchStep_get_self (oids : List Nat) (inputs : List Point) (s : CentroidTracker)
    (rc : Nat × Nat) :
    mapGet (matchStep oids inputs s rc).objects (oids.getD rc.1 0) =
      some (inputs.getD rc.2 (0, 0)) ∧
    mapGet (matchStep oids inputs s rc).disappeared (oids.getD rc.1 0) = some 0 :=
  ⟨mapGet_mapSet_self _ _ _, mapGet_mapSet_self _ _ _⟩

theorem matchFold_config (oids : List Nat) (inputs : List Point) :
    ∀ (ms : List (Nat × Nat)) (s : CentroidTracker),
      (ms.foldl (matchStep oids inputs) s).nextObjectID = s.nextObjectID ∧
      (ms.foldl (matchStep oids inputs) s).maxDisappeared = s.maxDisappeared ∧
      (ms.foldl (matchStep oids inputs) s).maxDistance = s.maxDistance := by
  intro ms
  induction ms with
  | nil => intro s; exact ⟨rfl, rfl, rfl⟩
  | cons m ms ih =>
    intro s
    rw [List.foldl_cons]
    exact ih (matchStep oids inputs s m)

theorem matchFold_get_not_touched (oids : List Nat) (inputs : List Point) :
    ∀ (ms : List (Nat × Nat)) (s : CentroidTracker) {id : Nat},
      id ∉ ms.map (fun rc => oids.getD rc.1 0) →
      mapGet (ms.foldl (matchStep oids inputs) s).objects id = mapGet s.objects id ∧
      mapGet (ms.foldl (matchStep oids inputs) s).disappeared id = mapGet s.disappeared id := by
  intro ms
  induction ms with
  | nil => intro s id _; exact ⟨rfl, rfl⟩
  | cons m ms ih =>
    intro s id hid
    rw [List.map_cons] at hid
    have h1 : id ≠ oids.getD m.1 0 := fun hc => hid (hc ▸ List.mem_cons_self _ _)
    have h2 : id ∉ ms.map (fun rc => oids.getD rc.1 0) :=
      fun hc => hid (List.mem_cons_of_mem _ hc)
    rw [List.foldl_cons]
    obtain ⟨io, idis⟩ := ih (matchStep oids inputs s m) h2
    obtain ⟨so, sdis⟩ := matchStep_get_ne oids inputs s m h1
    exact ⟨io.trans so, idis.trans sdis⟩

theorem matchFold_get_matched (oids : List Nat) (inputs : List Point) :
    ∀ (ms : List (Nat × Nat)) (s : CentroidTracker) {rc : Nat × Nat},
      rc ∈ ms → (ms.map (fun rc => oids.getD rc.1 0)).Nodup →
      mapGet (ms.foldl (matchStep oids inputs) s).objects (oids.getD rc.1 0) =
        some (inputs.getD rc.2 (0, 0)) ∧
      mapGet (ms.foldl (matchStep oids inputs) s).disappeared (oids.getD rc.1 0) = some 0 := by
  intro ms
  induction ms with
  | nil => intro s rc h; cases h
  | cons m ms ih =>
    intro s rc hmem hnd
    rw [List.map_cons, List.nodup_cons] at hnd
    rw [List.foldl_cons]
    rcases List.mem_cons.mp hmem with h | h
    · subst h
      have hnt : oids.getD rc.1 0 ∉ ms.map (fun rc2 => oids.getD rc2.1 0) := hnd.1
      obtain ⟨io, idis⟩ := matchFold_get_not_touched oids inputs ms
        (matchStep oids inputs s rc) hnt
      obtain ⟨so, sdis⟩ := matchStep_get_self oids inputs s rc
      exact ⟨io.trans so, idis.trans sdis⟩
    · exact ih (matchStep oids inputs s m) h hnd.2

theorem matchFold_keys (oids : List Nat) (inputs : List Point) :
    ∀ (ms : List (Nat × Nat)) (s : CentroidTracker),
      (∀ rc ∈ ms, oids.getD rc.1 0 ∈ keysOf s.objects) →
      (∀ rc ∈ ms, oids.getD rc.1 0 ∈ keysOf s.disappeared) →
      keysOf (ms.foldl (matchStep oids inputs) s).objects = keysOf s.objects ∧
      keysOf (ms.foldl (matchStep oids inputs) s).disappeared = keysOf s.disappeared := by
  intro ms
  induction ms with
  | nil => intro s _ _; exact ⟨rfl, rfl⟩
  | cons m ms ih =>
    intro s ho hd
    rw [List.foldl_cons]
    have ko : keysOf (matchStep oids inputs s m).objects = keysOf s.objects :=
      keysOf_mapSet_of_mem _ (ho m (List.mem_cons_self _ _))
    have kd : keysOf (matchStep oids inputs s m).disappeared = keysOf s.disappeared :=
      keysOf_mapSet_of_mem _ (hd m (List.mem_cons_self _ _))
    obtain ⟨io, idis⟩ := ih (matchStep oids inputs s m)
      (fun rc hrc => ko ▸ ho rc (List.mem_cons_of_mem _ hrc))
      (fun rc hrc => kd ▸ hd rc (List.mem_cons_of_mem _ hrc))
    exact ⟨io.trans ko, idis.trans kd⟩

/-! ### Effects of the aging step `bumpMiss` and aging folds -/

theorem bumpMiss_config (s : CentroidTracker) (j : Nat) :
    (bumpMiss s j).nextObjectID = s.nextObjectID ∧
    (bumpMiss s j).maxDisappeared = s.maxDisappeared ∧
    (bumpMiss s j).maxDistance = s.maxDistance := by
  simp only [bumpMiss]
  split <;> exact ⟨rfl, rfl, rfl⟩

theorem bumpMiss_get_ne (s : CentroidTracker) (j : Nat) {id : Nat} (h : id ≠ j) :
    mapGet (bumpMiss s j).objects id = mapGet s.objects id ∧
    mapGet (bumpMiss s j).disappeared id = mapGet s.disappeared id := by
  simp only [bumpMiss]
  split
  · exact ⟨mapGet_mapDelete_ne _ h, (mapGet_mapDelete_ne _ h).trans (mapGet_mapSet_ne _ _ h)⟩
  · exact ⟨rfl, mapGet_mapSet_ne _ _ h⟩

theorem bumpMiss_self_keep {s : CentroidTracker} {j : Nat} {d : Nat}
    (hd : mapGet s.disappeared j = some d) (h : (d : Int) + 1 ≤ s.maxDisappeared) :
    (bumpMiss s j).objects = s.objects ∧
    mapGet (bumpMiss s j).disappeared j = some (d + 1) := by
  simp only [bumpMiss, hd, Option.getD_some]
  rw [if_neg (not_lt.mpr h)]
  exact ⟨rfl, mapGet_mapSet_self _ _ _⟩

theorem bumpMiss_self_drop {s : CentroidTracker} {j : Nat} {d : Nat}
    (hd : mapGet s.disappeared j = some d) (h : s.maxDisappeared < (d : Int) + 1) :
    mapGet (bumpMiss s j).objects j = none ∧
    mapGet (bumpMiss s j).disappeared j = none := by
  simp only [bumpMiss, hd, Option.getD_some]
  rw [if_pos h]
  exact ⟨mapGet_mapDelete_self _ _, mapGet_mapDelete_self _ _⟩

theorem bumpFold_config : ∀ (L : List Nat) (s : CentroidTracker),
    (L.foldl bumpMiss s).nextObjectID = s.nextObjectID ∧
    (L.foldl bumpMiss s).maxDisappeared = s.maxDisappeared ∧
    (L.foldl bumpMiss s).maxDistance = s.maxDistance := by
  intro L
  induction L with
  | nil => intro s; exact ⟨rfl, rfl, rfl⟩
  | cons j L ih =>
    intro s
    rw [List.foldl_cons]
    obtain ⟨a, b, c⟩ := ih (bumpMiss s j)
    obtain ⟨a2, b2, c2⟩ := bumpMiss_config s j
    exact ⟨a.trans a2, b.trans b2, c.trans c2⟩

theorem bumpFold_get_not_mem : ∀ (L : List Nat) (s : CentroidTracker) {id : Nat}, id ∉ L →
    mapGet (L.foldl bumpMiss s).objects id = mapGet s.objects id ∧
    mapGet (L.foldl bumpMiss s).disappeared id = mapGet s.disappeared id := by
  intro L
  induction L with
  | nil => intro s id _; exact ⟨rfl, rfl⟩
  | cons j L ih =>
    intro s id hid
    have h1 : id ≠ j := fun hc => hid (hc ▸ List.mem_cons_self _ _)
    have h2 : id ∉ L := fun hc => hid (List.mem_cons_of_mem _ hc)
    rw [List.foldl_cons]
    obtain ⟨io, idis⟩ := ih (bumpMiss s j) h2
    obtain ⟨so, sdis⟩ := bumpMiss_get_ne s j h1
    exact ⟨io.trans so, idis.trans sdis⟩

theorem bumpFold_get_keep : ∀ (L : List Nat) (s : CentroidTracker) {id : Nat} {d : Nat},
    L.Nodup → id ∈ L → mapGet s.disappeared id = some d →
    (d : Int) + 1 ≤ s.maxDisappeared →
    mapGet (L.foldl bumpMiss s).objects id = mapGet s.objects id ∧
    mapGet (L.foldl bumpMiss s).disappeared id = some (d + 1) := by
  intro L
  induction L with
  | nil => intro s id d _ h; cases h
  | cons j L ih =>
    intro s id d hnd hmem hd hle
    rw [List.nodup_cons] at hnd
    rw [List.foldl_cons]
    rcases List.mem_cons.mp hmem with h | h
    · subst h
      obtain ⟨so, sdis⟩ := bumpMiss_self_keep hd hle
      obtain ⟨io, idis⟩ := bumpFold_get_not_mem L (bumpMiss s id) hnd.1
      refine ⟨?_, idis.trans sdis⟩
      rw [io, so]
    · have hne : id ≠ j := fun hc => hnd.1 (hc ▸ h)
      obtain ⟨so, sdis⟩ := bumpMiss_get_ne s j hne
      have hmd : (bumpMiss s j).maxDisappeared = s.maxDisappeared := (bumpMiss_config s j).2.1
      obtain ⟨io, idis⟩ := ih (bumpMiss s j) hnd.2 h (sdis.trans hd) (hmd ▸ hle)
      exact ⟨io.trans so, idis⟩

theorem bumpFold_get_drop : ∀ (L : List Nat) (s : CentroidTracker) {id : Nat} {d : Nat},
    L.Nodup → id ∈ L → mapGet s.disappeared id = some d →
    s.maxDisappeared < (d : Int) + 1 →
    mapGet (L.foldl bumpMiss s).objects id = none ∧
    mapGet (L.foldl bumpMiss s).disappeared id = none := by
  intro L
  induction L with
  | nil => intro s id d _ h; cases h
  | cons j L ih =>
    intro s id d hnd hmem hd hlt
    rw [List.nodup_cons] at hnd
    rw [List.foldl_cons]
    rcases List.mem_cons.mp hmem with h | h
    · subst h
      obtain ⟨so, sdis⟩ := bumpMiss_self_drop hd hlt
      obtain ⟨io, idis⟩ := bumpFold_get_not_mem L (bumpMiss s id) hnd.1
      exact ⟨io.trans so, idis.trans sdis⟩
    · have hne : id ≠ j := fun hc => hnd.1 (hc ▸ h)
      obtain ⟨so, sdis⟩ := bumpMiss_get_ne s j hne
      have hmd : (bumpMiss s j).maxDisappeared = s.maxDisappeared := (bumpMiss_config s j).2.1
      obtain ⟨io, idis⟩ := ih (bumpMiss s j) hnd.2 h (sdis.trans hd) (hmd ▸ hlt)
      exact ⟨io, idis⟩

theorem update_nil (t : CentroidTracker) (h : keysOf t.objects = keysOf t.disappeared) :
    update t [] = (keysOf t.disappeared).foldl bumpMiss t := by
  by_cases h0 : t.objects.length = 0
  · rw [update, if_pos h0]
    have hobj : t.objects = [] := List.length_eq_zero.mp h0
    have hdis : keysOf t.disappeared = [] := by
      rw [← h, hobj]
      rfl
    rw [hdis]
    rfl
  · rw [update, if_neg h0]
    simp


/-! ### Anatomy of the general branch of `update` -/

/-- The input centroids of a frame. -/
def inputsOf (rects : List Rect) : List Point := rects.map centroidOf

/-- The unmatched rows of one general-case `update` call, in ascending order. -/
def uRows (t : CentroidTracker) (rects : List Rect) : List Nat :=
  (List.range t.objects.length).filter
    (fun r => !(((matchesOf t rects).map Prod.fst).contains r))

/-- The unmatched columns of one general-case `update` call, in ascending order. -/
def uCols (t : CentroidTracker) (rects : List Rect) : List Nat :=
  (List.range (inputsOf rects).length).filter
    (fun c => !(((matchesOf t rects).map Prod.snd).contains c))

/-- The ids of the objects matched by one general-case `update` call. -/
def matchedIds (t : CentroidTracker) (rects : List Rect) : List Nat :=
  (matchesOf t rects).map (fun rc => (keysOf t.objects).getD rc.1 0)

/-- The ids of the live objects left unmatched by one general-case `update` call. -/
def uIds (t : CentroidTracker) (rects : List Rect) : List Nat :=
  (uRows t rects).map (fun r => (keysOf t.objects).getD r 0)

/-- The state after the `matches.forEach` commit loop. -/
def stage1 (t : CentroidTracker) (rects : List Rect) : CentroidTracker :=
  (matchesOf t rects).foldl (matchStep (keysOf t.objects) (inputsOf rects)) t

/-- The state after aging the unmatched rows. -/
def stage2 (t : CentroidTracker) (rects : List Rect) : CentroidTracker :=
  (uIds t rects).foldl bumpMiss (stage1 t rects)

theorem applyGeneral_decomp (t : CentroidTracker) (rects : List Rect) :
    applyGeneral t rects (matchesOf t rects) =
      ((uCols t rects).map (fun c => (inputsOf rects).getD c (0, 0))).foldl register
        (stage2 t rects) := by
  simp only [applyGeneral, stage2, stage1, uCols, uIds, uRows, inputsOf]
  rw [List.foldl_map, List.foldl_map]

theorem getD_keys_mem {t : CentroidTracker} {r : Nat} (h : r < t.objects.length) :
    (keysOf t.objects).getD r 0 ∈ keysOf t.objects := by
  have hl : r < (keysOf t.objects).length := by simpa [keysOf] using h
  rw [List.getD_eq_getElem _ 0 hl]
  exact (keysOf t.objects).getElem_mem hl

theorem mem_uRows_iff {t : CentroidTracker} {rects : List Rect} {r : Nat} :
    r ∈ uRows t rects ↔ r < t.objects.length ∧ r ∉ (matchesOf t rects).map Prod.fst := by
  simp [uRows, List.mem_filter, List.mem_range]

theorem mem_uCols_iff {t : CentroidTracker} {rects : List Rect} {c : Nat} :
    c ∈ uCols t rects ↔ c < (inputsOf rects).length ∧ c ∉ (matchesOf t rects).map Prod.snd := by
  simp [uCols, List.mem_filter, List.mem_range]

theorem getD_keys_inj {t : CentroidTracker} (hWF : WF t) {r r2 : Nat}
    (hr : r < t.objects.length) (hr2 : r2 < t.objects.length)
    (he : (keysOf t.objects).getD r 0 = (keysOf t.objects).getD r2 0) : r = r2 := by
  have hl : r < (keysOf t.objects).length := by simpa [keysOf] using hr
  have hl2 : r2 < (keysOf t.objects).length := by simpa [keysOf] using hr2
  rw [List.getD_eq_getElem _ 0 hl, List.getD_eq_getElem _ 0 hl2] at he
  exact (List.Nodup.getElem_inj_iff hWF.1).mp he

theorem matchedIds_nodup {t : CentroidTracker} (rects : List Rect) (hWF : WF t) :
    (matchedIds t rects).Nodup := by
  obtain ⟨hmem, hfst, -⟩ := matchesOf_strong t rects
  refine List.Nodup.map_on ?_ ?_
  · intro rc hrc rc2 hrc2 he
    have h1 := (hmem rc hrc).1
    have h2 := (hmem rc2 hrc2).1
    exact List.inj_on_of_nodup_map hfst hrc hrc2 (getD_keys_inj hWF h1 h2 he)
  · -- the match list itself is duplicate-free since its row projections are
    exact (List.Nodup.of_map Prod.fst hfst)

theorem uIds_nodup {t : CentroidTracker} (rects : List Rect) (hWF : WF t) :
    (uIds t rects).Nodup := by
  refine List.Nodup.map_on ?_ ?_
  · intro r hr r2 hr2 he
    exact getD_keys_inj hWF (mem_uRows_iff.mp hr).1 (mem_uRows_iff.mp hr2).1 he
  · exact List.Nodup.filter _ (List.nodup_range _)

theorem uIds_subset_keys {t : CentroidTracker} {rects : List Rect} {id : Nat}
    (h : id ∈ uIds t rects) : id ∈ keysOf t.objects := by
  obtain ⟨r, hr, rfl⟩ := List.mem_map.mp h
  exact getD_keys_mem (mem_uRows_iff.mp hr).1

theorem matchedIds_subset_keys {t : CentroidTracker} {rects : List Rect} {id : Nat}
    (h : id ∈ matchedIds t rects) : id ∈ keysOf t.objects := by
  obtain ⟨rc, hrc, rfl⟩ := List.mem_map.mp h
  exact getD_keys_mem ((matchesOf_strong t rects).1 rc hrc).1

theorem uIds_disjoint_matchedIds {t : CentroidTracker} {rects : List Rect} (hWF : WF t)
    {id : Nat} (hu : id ∈ uIds t rects) (hm : id ∈ matchedIds t rects) : False := by
  obtain ⟨r, hr, he⟩ := List.mem_map.mp hu
  obtain ⟨rc, hrc, he2⟩ := List.mem_map.mp hm
  obtain ⟨hrlt, hnotin⟩ := mem_uRows_iff.mp hr
  have hrc1 : rc.1 < t.objects.length := ((matchesOf_strong t rects).1 rc hrc).1
  have : r = rc.1 := getD_keys_inj hWF hrlt hrc1 (he.trans he2.symm)
  exact hnotin (this ▸ List.mem_map.mpr ⟨rc, hrc, rfl⟩)

theorem keys_covered {t : CentroidTracker} (rects : List Rect) {id : Nat}
    (h : id ∈ keysOf t.objects) : id ∈ matchedIds t rects ∨ id ∈ uIds t rects := by
  obtain ⟨r, hrlt, hre⟩ := List.getElem_of_mem (by simpa [keysOf] using h :
    id ∈ List.map Prod.fst t.objects)
  have hrlen : r < t.objects.length := by simpa using hrlt
  have hid : (keysOf t.objects).getD r 0 = id := by
    rw [List.getD_eq_getElem _ 0 (by simpa [keysOf] using hrlen)]
    exact hre
  by_cases hm : r ∈ (matchesOf t rects).map Prod.fst
  · left
    obtain ⟨rc, hrc, hrce⟩ := List.mem_map.mp hm
    exact List.mem_map.mpr ⟨rc, hrc, by rw [hrce, hid]⟩
  · right
    exact List.mem_map.mpr ⟨r, mem_uRows_iff.mpr ⟨hrlen, hm⟩, hid⟩


theorem mapGet_map_const_zero (l : List (Nat × α)) (k : Nat) :
    mapGet (l.map (fun p => (p.1, (0 : Nat)))) k = (mapGet l k).map (fun _ => 0) := by
  induction l with
  | nil => rfl
  | cons p l ih =>
    obtain ⟨k0, v0⟩ := p
    rw [List.map_cons, mapGet_cons, mapGet_cons]
    by_cases h : k0 = k
    · simp [h]
    · rw [if_neg h, if_neg h, ih]

theorem registerFold_get_old (cs : List Point) {s : CentroidTracker} (hB : Bounded s)
    (id : Nat) (hid : id < s.nextObjectID) :
    mapGet (cs.foldl register s).objects id = mapGet s.objects id ∧
    mapGet (cs.foldl register s).disappeared id = mapGet s.disappeared id := by
  obtain ⟨io, idis, -, -, -⟩ := registerFold cs s hB
  rw [io, idis]
  constructor
  · by_cases h : id ∈ keysOf s.objects
    · exact mapGet_append_left _ h
    · rw [mapGet_append_of_not_mem_left _ h, mapGet_eq_none_of_not_mem h,
        mapGet_enumFrom_lt _ _ _ hid]
  · by_cases h : id ∈ keysOf s.disappeared
    · exact mapGet_append_left _ h
    · rw [mapGet_append_of_not_mem_left _ h, mapGet_eq_none_of_not_mem h,
        mapGet_map_const_zero, mapGet_enumFrom_lt _ _ _ hid]
      rfl

theorem registerFold_get_new (cs : List Point) {s : CentroidTracker} (hB : Bounded s)
    {j : Nat} {c : Point} (hj : cs[j]? = some c) :
    mapGet (cs.foldl register s).objects (s.nextObjectID + j) = some c ∧
    mapGet (cs.foldl register s).disappeared (s.nextObjectID + j) = some 0 := by
  obtain ⟨io, idis, -, -, -⟩ := registerFold cs s hB
  have hno : s.nextObjectID + j ∉ keysOf s.objects :=
    fun hmem => by have := hB.1 _ hmem; omega
  have hnd : s.nextObjectID + j ∉ keysOf s.disappeared :=
    fun hmem => by have := hB.2 _ hmem; omega
  rw [io, idis, mapGet_append_of_not_mem_left _ hno, mapGet_append_of_not_mem_left _ hnd,
    mapGet_enumFrom, mapGet_map_const_zero, mapGet_enumFrom, hj]
  exact ⟨rfl, rfl⟩


theorem bumpMiss_keys {s : CentroidTracker} {j : Nat} (hj : j ∈ keysOf s.disappeared) :
    (keysOf (bumpMiss s j).objects = keysOf s.objects ∧
      keysOf (bumpMiss s j).disappeared = keysOf s.disappeared) ∨
    (keysOf (bumpMiss s j).objects = (keysOf s.objects).filter (fun x => x != j) ∧
      keysOf (bumpMiss s j).disappeared = (keysOf s.disappeared).filter (fun x => x != j)) := by
  by_cases h : s.maxDisappeared < ((mapGet s.disappeared j).getD 0 : Int) + 1
  · right
    have e1 : (bumpMiss s j).objects = mapDelete s.objects j := by
      simp only [bumpMiss]
      rw [if_pos h]
      rfl
    have e2 : (bumpMiss s j).disappeared =
        mapDelete (mapSet s.disappeared j ((mapGet s.disappeared j).getD 0 + 1)) j := by
      simp only [bumpMiss]
      rw [if_pos h]
      rfl
    rw [e1, e2, keysOf_mapDelete, keysOf_mapDelete, keysOf_mapSet_of_mem _ hj]
    exact ⟨rfl, rfl⟩
  · left
    have e1 : (bumpMiss s j).objects = s.objects := by
      simp only [bumpMiss]
      rw [if_neg h]
    have e2 : (bumpMiss s j).disappeared =
        mapSet s.disappeared j ((mapGet s.disappeared j).getD 0 + 1) := by
      simp only [bumpMiss]
      rw [if_neg h]
    rw [e1, e2, keysOf_mapSet_of_mem _ hj]
    exact ⟨rfl, rfl⟩

theorem bumpFold_WF : ∀ (L : List Nat) (s : CentroidTracker), L.Nodup →
    (∀ j ∈ L, j ∈ keysOf s.disappeared) →
    (keysOf s.objects).Nodup → keysOf s.objects = keysOf s.disappeared →
    (keysOf (L.foldl bumpMiss s).objects).Nodup ∧
    keysOf (L.foldl bumpMiss s).objects = keysOf (L.foldl bumpMiss s).disappeared ∧
    ∀ id ∈ keysOf (L.foldl bumpMiss s).objects, id ∈ keysOf s.objects := by
  intro L
  induction L with
  | nil => intro s _ _ hn heq; exact ⟨hn, heq, fun id h => h⟩
  | cons j L ih =>
    intro s hnd hmem hn heq
    rw [List.nodup_cons] at hnd
    rw [List.foldl_cons]
    have hj : j ∈ keysOf s.disappeared := hmem j (List.mem_cons_self _ _)
    rcases bumpMiss_keys hj with ⟨ko, kd⟩ | ⟨ko, kd⟩
    · obtain ⟨a, b, c⟩ := ih (bumpMiss s j) hnd.2
        (fun j2 hj2 => kd ▸ hmem j2 (List.mem_cons_of_mem _ hj2))
        (ko ▸ hn) (by rw [ko, kd]; exact heq)
      exact ⟨a, b, fun id hid => ko ▸ c id hid⟩
    · obtain ⟨a, b, c⟩ := ih (bumpMiss s j) hnd.2
        (fun j2 hj2 => by
          rw [kd, List.mem_filter]
          refine ⟨hmem j2 (List.mem_cons_of_mem _ hj2), ?_⟩
          simp only [bne_iff_ne, ne_eq]
          exact fun hc => hnd.1 (hc ▸ hj2))
        (ko ▸ hn.filter _) (by rw [ko, kd, heq])
      refine ⟨a, b, fun id hid => ?_⟩
      have := c id hid
      rw [ko, List.mem_filter] at this
      exact this.1

theorem stage1_facts {t : CentroidTracker} (rects : List Rect) (hWF : WF t) :
    keysOf (stage1 t rects).objects = keysOf t.objects ∧
    keysOf (stage1 t rects).disappeared = keysOf t.disappeared ∧
    (stage1 t rects).nextObjectID = t.nextObjectID ∧
    (stage1 t rects).maxDisappeared = t.maxDisappeared ∧
    (stage1 t rects).maxDistance = t.maxDistance := by
  have hmem := (matchesOf_strong t rects).1
  obtain ⟨ko, kd⟩ := matchFold_keys (keysOf t.objects) (inputsOf rects) (matchesOf t rects) t
    (fun rc hrc => getD_keys_mem (hmem rc hrc).1)
    (fun rc hrc => hWF.2.1 ▸ getD_keys_mem (hmem rc hrc).1)
  obtain ⟨n, m, d⟩ := matchFold_config (keysOf t.objects) (inputsOf rects) (matchesOf t rects) t
  exact ⟨ko, kd, n, m, d⟩

theorem stage2_facts {t : CentroidTracker} (rects : List Rect) (hWF : WF t) :
    (keysOf (stage2 t rects).objects).Nodup ∧
    keysOf (stage2 t rects).objects = keysOf (stage2 t rects).disappeared ∧
    (∀ id ∈ keysOf (stage2 t rects).objects, id ∈ keysOf t.objects) ∧
    (stage2 t rects).nextObjectID = t.nextObjectID ∧
    (stage2 t rects).maxDisappeared = t.maxDisappeared ∧
    (stage2 t rects).maxDistance = t.maxDistance := by
  obtain ⟨ko, kd, n1, m1, d1⟩ := stage1_facts rects hWF
  obtain ⟨a, b, c⟩ := bumpFold_WF (uIds t rects) (stage1 t rects) (uIds_nodup _ hWF)
    (fun j hj => by rw [kd, ← hWF.2.1]; exact uIds_subset_keys hj)
    (ko ▸ hWF.1) (by rw [ko, kd]; exact hWF.2.1)
  obtain ⟨n2, m2, d2⟩ := bumpFold_config (uIds t rects) (stage1 t rects)
  exact ⟨a, b, fun id hid => ko ▸ c id hid, n2.trans n1, m2.trans m1, d2.trans d1⟩

theorem stage2_Bounded {t : CentroidTracker} (rects : List Rect) (hWF : WF t) :
    Bounded (stage2 t rects) := by
  obtain ⟨-, hkeq, hsub, hnx, -, -⟩ := stage2_facts rects hWF
  constructor
  · intro id hid
    rw [hnx]
    exact hWF.2.2 id (hsub id hid)
  · intro id hid
    rw [hnx]
    exact hWF.2.2 id (hsub id (hkeq ▸ hid))


theorem updateGeneral_get {t : CentroidTracker} {rects : List Rect} (hWF : WF t)
    (hobj : t.objects ≠ []) (hrects : rects ≠ []) :
    (∀ rc ∈ matchesOf t rects,
      mapGet (update t rects).objects ((keysOf t.objects).getD rc.1 0) =
        some ((inputsOf rects).getD rc.2 (0, 0)) ∧
      mapGet (update t rects).disappeared ((keysOf t.objects).getD rc.1 0) = some 0) ∧
    (∀ r ∈ uRows t rects, ∀ d : Nat,
      mapGet t.disappeared ((keysOf t.objects).getD r 0) = some d →
      (((d : Int) + 1 ≤ t.maxDisappeared) →
        mapGet (update t rects).objects ((keysOf t.objects).getD r 0) =
          mapGet t.objects ((keysOf t.objects).getD r 0) ∧
        mapGet (update t rects).disappeared ((keysOf t.objects).getD r 0) = some (d + 1)) ∧
      ((t.maxDisappeared < (d : Int) + 1) →
        mapGet (update t rects).objects ((keysOf t.objects).getD r 0) = none ∧
        mapGet (update t rects).disappeared ((keysOf t.objects).getD r 0) = none)) ∧
    (∀ (j : Nat) (c : Point),
      ((uCols t rects).map (fun c => (inputsOf rects).getD c (0, 0)))[j]? = some c →
      mapGet (update t rects).objects (t.nextObjectID + j) = some c ∧
      mapGet (update t rects).disappeared (t.nextObjectID + j) = some 0) ∧
    (∀ id : Nat, id < t.nextObjectID → id ∉ keysOf t.objects →
      mapGet (update t rects).objects id = none ∧
      mapGet (update t rects).disappeared id = none) ∧
    (update t rects).nextObjectID = t.nextObjectID + (uCols t rects).length ∧
    (update t rects).maxDisappeared = t.maxDisappeared ∧
    (update t rects).maxDistance = t.maxDistance := by
  have hupd : update t rects =
      ((uCols t rects).map (fun c => (inputsOf rects).getD c (0, 0))).foldl register
        (stage2 t rects) :=
    ((update_general_case_greedy t rects hobj hrects).2).trans (applyGeneral_decomp t rects)
  obtain ⟨s1ko, s1kd, s1n, s1m, s1d⟩ := stage1_facts rects hWF
  obtain ⟨s2nd, s2keq, s2sub, s2n, s2m, s2d⟩ := stage2_facts rects hWF
  have hB2 := stage2_Bounded rects hWF
  have hmemS := (matchesOf_strong t rects).1
  refine ⟨?_, ?_, ?_, ?_, ?_, ?_, ?_⟩
  · intro rc hrc
    have hidm : (keysOf t.objects).getD rc.1 0 ∈ matchedIds t rects :=
      List.mem_map.mpr ⟨rc, hrc, rfl⟩
    obtain ⟨g1o, g1d⟩ := matchFold_get_matched (keysOf t.objects) (inputsOf rects)
      (matchesOf t rects) t hrc (matchedIds_nodup _ hWF)
    obtain ⟨g2o, g2d⟩ := bumpFold_get_not_mem (uIds t rects) (stage1 t rects)
      (fun hu => uIds_disjoint_matchedIds hWF hu hidm)
    obtain ⟨g3o, g3d⟩ := registerFold_get_old
      ((uCols t rects).map (fun c => (inputsOf rects).getD c (0, 0))) hB2
      ((keysOf t.objects).getD rc.1 0)
      (by rw [s2n]; exact hWF.2.2 _ (getD_keys_mem (hmemS rc hrc).1))
    rw [hupd]
    exact ⟨g3o.trans (g2o.trans g1o), g3d.trans (g2d.trans g1d)⟩
  · intro r hr d hd
    have hidu : (keysOf t.objects).getD r 0 ∈ uIds t rects := List.mem_map.mpr ⟨r, hr, rfl⟩
    have hidk : (keysOf t.objects).getD r 0 ∈ keysOf t.objects := uIds_subset_keys hidu
    have hlt : (keysOf t.objects).getD r 0 < (stage2 t rects).nextObjectID := by
      rw [s2n]
      exact hWF.2.2 _ hidk
    obtain ⟨g1o, g1d⟩ := matchFold_get_not_touched (keysOf t.objects) (inputsOf rects)
      (matchesOf t rects) t (fun hm => uIds_disjoint_matchedIds hWF hidu hm)
    constructor
    · intro hle
      obtain ⟨g2o, g2d⟩ := bumpFold_get_keep (uIds t rects) (stage1 t rects)
        (uIds_nodup _ hWF) hidu (g1d.trans hd) (by rw [s1m]; exact hle)
      obtain ⟨g3o, g3d⟩ := registerFold_get_old
        ((uCols t rects).map (fun c => (inputsOf rects).getD c (0, 0))) hB2 _ hlt
      rw [hupd]
      exact ⟨g3o.trans (g2o.trans g1o), g3d.trans g2d⟩
    · intro hgt
      obtain ⟨g2o, g2d⟩ := bumpFold_get_drop (uIds t rects) (stage1 t rects)
        (uIds_nodup _ hWF) hidu (g1d.trans hd) (by rw [s1m]; exact hgt)
      obtain ⟨g3o, g3d⟩ := registerFold_get_old
        ((uCols t rects).map (fun c => (inputsOf rects).getD c (0, 0))) hB2 _ hlt
      rw [hupd]
      exact ⟨g3o.trans g2o, g3d.trans g2d⟩
  · intro j c hj
    obtain ⟨g3o, g3d⟩ := registerFold_get_new
      ((uCols t rects).map (fun c => (inputsOf rects).getD c (0, 0))) hB2 hj
    rw [hupd, ← s2n]
    exact ⟨g3o, g3d⟩
  · intro id hlt hnk
    have hnd : id ∉ keysOf t.disappeared := hWF.2.1 ▸ hnk
    obtain ⟨g1o, g1d⟩ := matchFold_get_not_touched (keysOf t.objects) (inputsOf rects)
      (matchesOf t rects) t (fun hm => hnk (matchedIds_subset_keys hm))
    obtain ⟨g2o, g2d⟩ := bumpFold_get_not_mem (uIds t rects) (stage1 t rects)
      (fun hu => hnk (uIds_subset_keys hu))
    obtain ⟨g3o, g3d⟩ := registerFold_get_old
      ((uCols t rects).map (fun c => (inputsOf rects).getD c (0, 0))) hB2
      id (by rw [s2n]; exact hlt)
    rw [hupd]
    exact ⟨(g3o.trans (g2o.trans g1o)).trans (mapGet_eq_none_of_not_mem hnk),
      (g3d.trans (g2d.trans g1d)).trans (mapGet_eq_none_of_not_mem hnd)⟩
  · obtain ⟨-, -, rn, -, -⟩ := registerFold
      ((uCols t rects).map (fun c => (inputsOf rects).getD c (0, 0))) (stage2 t rects) hB2
    rw [hupd, rn, s2n, List.length_map]
  · obtain ⟨-, -, -, rm, -⟩ := registerFold
      ((uCols t rects).map (fun c => (inputsOf rects).getD c (0, 0))) (stage2 t rects) hB2
    rw [hupd, rm, s2m]
  · obtain ⟨-, -, -, -, rd⟩ := registerFold
      ((uCols t rects).map (fun c => (inputsOf rects).getD c (0, 0))) (stage2 t rects) hB2
    rw [hupd, rd, s2d]


theorem keysOf_enumFrom (n : Nat) (cs : List α) :
    keysOf (List.enumFrom n cs) = List.range' n cs.length := by
  rw [keysOf, List.enumFrom_map_fst]

theorem keysOf_enumFrom_map_zero (n : Nat) (cs : List Point) :
    keysOf ((List.enumFrom n cs).map (fun p => (p.1, (0 : Nat)))) = List.range' n cs.length := by
  rw [keysOf, List.map_map]
  rw [show (Prod.fst ∘ fun p : Nat × Point => (p.1, (0 : Nat))) = Prod.fst from rfl,
    List.enumFrom_map_fst]

theorem update_WF {t : CentroidTracker} (rects : List Rect) (hWF : WF t) :
    WF (update t rects) ∧ t.nextObjectID ≤ (update t rects).nextObjectID ∧
    (update t rects).maxDisappeared = t.maxDisappeared ∧
    (update t rects).maxDistance = t.maxDistance := by
  by_cases h0 : t.objects = []
  · have hd0 : t.disappeared = [] := by
      have h := hWF.2.1
      rw [h0] at h
      exact List.map_eq_nil_iff.mp h.symm
    obtain ⟨io, idis, inx, imd, imdist⟩ := update_no_objects _ rects h0
      ⟨by simp [h0, keysOf], by simp [hd0, keysOf]⟩
    refine ⟨⟨?_, ?_, ?_⟩, ?_, imd, imdist⟩
    · rw [io, keysOf_enumFrom]
      exact List.nodup_range' _ _
    · rw [io, idis, hd0, List.nil_append, keysOf_enumFrom, keysOf_enumFrom_map_zero]
    · intro id hid
      rw [io, keysOf_enumFrom, List.mem_range'_1] at hid
      rw [inx]
      simp only [List.length_map] at hid
      omega
    · rw [inx]
      omega
  · by_cases hr : rects = []
    · subst hr
      rw [update_nil t hWF.2.1]
      obtain ⟨a, b, c⟩ := bumpFold_WF (keysOf t.disappeared) t (hWF.2.1 ▸ hWF.1)
        (fun j hj => hj) hWF.1 hWF.2.1
      obtain ⟨n, m, d⟩ := bumpFold_config (keysOf t.disappeared) t
      exact ⟨⟨a, b, fun id hid => n ▸ hWF.2.2 id (c id hid)⟩, le_of_eq n.symm, m, d⟩
    · have hupd : update t rects =
          ((uCols t rects).map (fun c => (inputsOf rects).getD c (0, 0))).foldl register
            (stage2 t rects) :=
        ((update_general_case_greedy t rects h0 hr).2).trans (applyGeneral_decomp t rects)
      obtain ⟨s2nd, s2keq, s2sub, s2n, s2m, s2d⟩ := stage2_facts rects hWF
      have hB2 := stage2_Bounded rects hWF
      obtain ⟨io, idis, inx, imd, imdist⟩ := registerFold
        ((uCols t rects).map (fun c => (inputsOf rects).getD c (0, 0))) (stage2 t rects) hB2
      rw [hupd]
      refine ⟨⟨?_, ?_, ?_⟩, ?_, imd.trans s2m, imdist.trans s2d⟩
      · rw [io, keysOf_append, keysOf_enumFrom]
        refine List.Nodup.append s2nd (List.nodup_range' _ _) ?_
        intro id hid hid2
        rw [List.mem_range'_1] at hid2
        exact absurd (hB2.1 id hid) (by omega)
      · rw [io, idis, keysOf_append, keysOf_append, keysOf_enumFrom, keysOf_enumFrom_map_zero,
          s2keq]
      · intro id hid
        rw [io, keysOf_append, keysOf_enumFrom] at hid
        rw [inx]
        rcases List.mem_append.mp hid with h | h
        · have := hB2.1 id h
          omega
        · rw [List.mem_range'_1] at h
          omega
      · rw [inx, s2n]
        omega


theorem register_WF {t : CentroidTracker} (hWF : WF t) (c : Point) : WF (register t c) := by
  have hno : t.nextObjectID ∉ keysOf t.objects := fun h => lt_irrefl _ (hWF.2.2 _ h)
  have hnd : t.nextObjectID ∉ keysOf t.disappeared := hWF.2.1 ▸ hno
  have ko : keysOf (register t c).objects = keysOf t.objects ++ [t.nextObjectID] :=
    keysOf_mapSet_of_not_mem _ hno
  have kd : keysOf (register t c).disappeared = keysOf t.disappeared ++ [t.nextObjectID] :=
    keysOf_mapSet_of_not_mem _ hnd
  refine ⟨?_, ?_, ?_⟩
  · rw [ko]
    exact List.Nodup.append hWF.1 (List.nodup_singleton _) (by simpa using hno)
  · rw [ko, kd, hWF.2.1]
  · intro id hid
    rw [ko] at hid
    have hnx : (register t c).nextObjectID = t.nextObjectID + 1 := rfl
    rw [hnx]
    rcases List.mem_append.mp hid with h | h
    · exact lt_trans (hWF.2.2 id h) (by omega)
    · simp only [List.mem_singleton] at h
      omega

theorem deregister_WF {t : CentroidTracker} (hWF : WF t) (id : Nat) : WF (deregister t id) := by
  have ko : keysOf (deregister t id).objects = (keysOf t.objects).filter (fun x => x != id) :=
    keysOf_mapDelete _ _
  have kd : keysOf (deregister t id).disappeared =
      (keysOf t.disappeared).filter (fun x => x != id) := keysOf_mapDelete _ _
  refine ⟨?_, ?_, ?_⟩
  · rw [ko]
    exact hWF.1.filter _
  · rw [ko, kd, hWF.2.1]
  · intro id2 hid2
    rw [ko, List.mem_filter] at hid2
    exact hWF.2.2 id2 hid2.1

/-- Claim C9: every operation of the engine (`register`, `deregister`, `update`)
preserves the invariant that the id→centroid table and the id→missed-count table have
exactly the same key set (here even the same key list): every live id has both a
centroid and a missed count, and a removed id has neither.  The full reachable-state
invariant `WF` is preserved as well. -/
theorem ops_preserve_key_tables {t : CentroidTracker} (hWF : WF t) :
    (∀ c : Point, keysOf (register t c).objects = keysOf (register t c).disappeared ∧
      WF (register t c)) ∧
    (∀ id : Nat, keysOf (deregister t id).objects = keysOf (deregister t id).disappeared ∧
      WF (deregister t id)) ∧
    (∀ rects : List Rect, keysOf (update t rects).objects =
      keysOf (update t rects).disappeared ∧ WF (update t rects)) := by
  refine ⟨?_, ?_, ?_⟩
  · intro c
    have h := register_WF hWF c
    exact ⟨h.2.1, h⟩
  · intro id
    have h := deregister_WF hWF id
    exact ⟨h.2.1, h⟩
  · intro rects
    have h := (update_WF rects hWF).1
    exact ⟨h.2.1, h⟩

/-- Witness for C9 at a concrete state. -/
theorem ops_preserve_key_tables_witness :
    (∀ c : Point, keysOf (register wTracker c).objects =
      keysOf (register wTracker c).disappeared ∧ WF (register wTracker c)) ∧
    (∀ id : Nat, keysOf (deregister wTracker id).objects =
      keysOf (deregister wTracker id).disappeared ∧ WF (deregister wTracker id)) ∧
    (∀ rects : List Rect, keysOf (update wTracker rects).objects =
      keysOf (update wTracker rects).disappeared ∧ WF (update wTracker rects)) :=
  ops_preserve_key_tables (by decide)

theorem update_new_ids {t : CentroidTracker} (rects : List Rect) (hWF : WF t) :
    ∀ id ∈ keysOf (update t rects).objects, id ∉ keysOf t.objects →
      t.nextObjectID ≤ id := by
  intro id hid hnew
  by_cases h0 : t.objects = []
  · obtain ⟨io, -, -, -, -⟩ := update_no_objects _ rects h0
      ⟨fun i hi => hWF.2.2 i hi, fun i hi => hWF.2.2 i (hWF.2.1 ▸ hi)⟩
    rw [io, keysOf_enumFrom, List.mem_range'_1] at hid
    omega
  · by_cases hr : rects = []
    · subst hr
      rw [update_nil t hWF.2.1] at hid
      obtain ⟨-, -, c⟩ := bumpFold_WF (keysOf t.disappeared) t (hWF.2.1 ▸ hWF.1)
        (fun j hj => hj) hWF.1 hWF.2.1
      exact absurd (c id hid) hnew
    · have hupd : update t rects =
          ((uCols t rects).map (fun c => (inputsOf rects).getD c (0, 0))).foldl register
            (stage2 t rects) :=
        ((update_general_case_greedy t rects h0 hr).2).trans (applyGeneral_decomp t rects)
      obtain ⟨-, -, s2sub, s2n, -, -⟩ := stage2_facts rects hWF
      have hB2 := stage2_Bounded rects hWF
      obtain ⟨io, -, -, -, -⟩ := registerFold
        ((uCols t rects).map (fun c => (inputsOf rects).getD c (0, 0))) (stage2 t rects) hB2
      rw [hupd, io, keysOf_append] at hid
      rcases List.mem_append.mp hid with h | h
      · exact absurd (s2sub id h) hnew
      · rw [keysOf_enumFrom, List.mem_range'_1, s2n] at h
        omega

/-- Claim C4: ids are monotonic and never reused.  From any reachable state (`WF`),
one `update` call preserves the invariant, never decreases the fresh-id counter, and
every id that is live afterwards but was not live before is at least the old counter
value — hence strictly greater than every id issued earlier in the engine's lifetime
(all of which are below the counter, by `WF`). -/
theorem monotonic_ids {t : CentroidTracker} (rects : List Rect) (hWF : WF t) :
    WF (update t rects) ∧ t.nextObjectID ≤ (update t rects).nextObjectID ∧
    (∀ id ∈ keysOf (update t rects).objects, id ∉ keysOf t.objects →
      t.nextObjectID ≤ id) ∧
    ∀ id ∈ keysOf t.objects, id < t.nextObjectID :=
  ⟨(update_WF rects hWF).1, (update_WF rects hWF).2.1, update_new_ids rects hWF, hWF.2.2⟩

/-- Witness for C4 at a concrete state. -/
theorem monotonic_ids_witness :
    WF (update wTracker wRects) ∧
    wTracker.nextObjectID ≤ (update wTracker wRects).nextObjectID ∧
    (∀ id ∈ keysOf (update wTracker wRects).objects, id ∉ keysOf wTracker.objects →
      wTracker.nextObjectID ≤ id) ∧
    ∀ id ∈ keysOf wTracker.objects, id < wTracker.nextObjectID :=
  monotonic_ids wRects (by decide)


/-- Every recorded miss count is at most `maxDisappeared`. -/
def CountsLe (t : CentroidTracker) : Prop :=
  ∀ (id d : Nat), mapGet t.disappeared id = some d → (d : Int) ≤ t.maxDisappeared

theorem mapGet_mapSet_cases {m : List (Nat × α)} {k id : Nat} {v d : α}
    (h : mapGet (mapSet m k v) id = some d) : d = v ∨ mapGet m id = some d := by
  by_cases he : id = k
  · subst he
    rw [mapGet_mapSet_self] at h
    exact Or.inl (by cases h; rfl)
  · rw [mapGet_mapSet_ne _ _ he] at h
    exact Or.inr h

theorem CountsLe_register {s : CentroidTracker} (hC : CountsLe s)
    (hmd : 0 ≤ s.maxDisappeared) (c : Point) : CountsLe (register s c) := by
  intro id d hd
  rw [show (register s c).disappeared = mapSet s.disappeared s.nextObjectID 0 from rfl] at hd
  rcases mapGet_mapSet_cases hd with h | h
  · subst h
    simpa using hmd
  · exact hC id d h

theorem CountsLe_matchStep {s : CentroidTracker} (hC : CountsLe s)
    (hmd : 0 ≤ s.maxDisappeared) (oids : List Nat) (inputs : List Point) (rc : Nat × Nat) :
    CountsLe (matchStep oids inputs s rc) := by
  intro id d hd
  rw [show (matchStep oids inputs s rc).disappeared =
    mapSet s.disappeared (oids.getD rc.1 0) 0 from rfl] at hd
  rcases mapGet_mapSet_cases hd with h | h
  · subst h
    simpa using hmd
  · exact hC id d h

theorem CountsLe_bumpMiss {s : CentroidTracker} (hC : CountsLe s) (j : Nat) :
    CountsLe (bumpMiss s j) := by
  intro id d hd
  have hmd : (bumpMiss s j).maxDisappeared = s.maxDisappeared := (bumpMiss_config s j).2.1
  rw [hmd]
  by_cases h : s.maxDisappeared < ((mapGet s.disappeared j).getD 0 : Int) + 1
  · have e2 : (bumpMiss s j).disappeared =
        mapDelete (mapSet s.disappeared j ((mapGet s.disappeared j).getD 0 + 1)) j := by
      simp only [bumpMiss]
      rw [if_pos h]
      rfl
    rw [e2] at hd
    by_cases he : id = j
    · subst he
      rw [mapGet_mapDelete_self] at hd
      cases hd
    · rw [mapGet_mapDelete_ne _ he, mapGet_mapSet_ne _ _ he] at hd
      exact hC id d hd
  · have e2 : (bumpMiss s j).disappeared =
        mapSet s.disappeared j ((mapGet s.disappeared j).getD 0 + 1) := by
      simp only [bumpMiss]
      rw [if_neg h]
    rw [e2] at hd
    rcases mapGet_mapSet_cases hd with hcase | hcase
    · subst hcase
      rw [not_lt] at h
      push_cast
      omega
    · exact hC id d hcase

theorem foldl_preserve {β : Type} (P : CentroidTracker → Prop)
    (step : CentroidTracker → β → CentroidTracker)
    (hstep : ∀ s b, P s → P (step s b)) :
    ∀ (L : List β) (s : CentroidTracker), P s → P (L.foldl step s) := by
  intro L
  induction L with
  | nil => intro s h; exact h
  | cons b L ih =>
    intro s h
    exact ih _ (hstep s b h)

theorem update_CountsLe {M : Int} (hM : 0 ≤ M) (rects : List Rect) (s : CentroidTracker)
    (hP : CountsLe s ∧ s.maxDisappeared = M) :
    CountsLe (update s rects) ∧ (update s rects).maxDisappeared = M := by
  have hreg : ∀ (s2 : CentroidTracker) (c : Point),
      (CountsLe s2 ∧ s2.maxDisappeared = M) →
      CountsLe (register s2 c) ∧ (register s2 c).maxDisappeared = M :=
    fun s2 c h2 => ⟨CountsLe_register h2.1 (by rw [h2.2]; exact hM) c, h2.2⟩
  have hbump : ∀ (s2 : CentroidTracker) (j : Nat),
      (CountsLe s2 ∧ s2.maxDisappeared = M) →
      CountsLe (bumpMiss s2 j) ∧ (bumpMiss s2 j).maxDisappeared = M :=
    fun s2 j h2 => ⟨CountsLe_bumpMiss h2.1 j, ((bumpMiss_config s2 j).2.1).trans h2.2⟩
  by_cases h0 : s.objects.length = 0
  · rw [update, if_pos h0, ← List.foldl_map centroidOf register rects s]
    exact foldl_preserve (fun s2 => CountsLe s2 ∧ s2.maxDisappeared = M) register hreg _ s hP
  · by_cases hr : rects.length = 0
    · rw [update, if_neg h0, if_pos hr]
      exact foldl_preserve (fun s2 => CountsLe s2 ∧ s2.maxDisappeared = M) bumpMiss
        hbump _ s hP
    · rw [update, if_neg h0, if_neg hr, applyGeneral_decomp]
      refine foldl_preserve (fun s2 => CountsLe s2 ∧ s2.maxDisappeared = M) register
        hreg _ _ ?_
      refine foldl_preserve (fun s2 => CountsLe s2 ∧ s2.maxDisappeared = M) bumpMiss
        hbump _ _ ?_
      refine foldl_preserve (fun s2 => CountsLe s2 ∧ s2.maxDisappeared = M)
        (matchStep (keysOf s.objects) (inputsOf rects)) ?_ _ _ hP
      intro s2 rc h2
      exact ⟨CountsLe_matchStep h2.1 (by rw [h2.2]; exact hM) _ _ rc, h2.2⟩

/-- Claim C8: for every state reachable from a fresh engine with
`max_disappeared ≥ 0`, after every `update` call every recorded missed count `d`
satisfies `0 ≤ d ≤ max_disappeared`: a count above the threshold is never observable,
because the same call that would push it past the threshold deregisters the object. -/
theorem counts_never_exceed (md mdist : Int) (hmd : 0 ≤ md) (frames : List (List Rect)) :
    ∀ (id d : Nat),
      mapGet (runFrames (CentroidTracker.init md mdist) frames).disappeared id = some d →
      0 ≤ (d : Int) ∧ (d : Int) ≤ md := by
  have h := foldl_preserve (fun s2 => CountsLe s2 ∧ s2.maxDisappeared = md) update
    (fun s rects hP => update_CountsLe hmd rects s hP) frames
    (CentroidTracker.init md mdist) ⟨(fun id d hd => by cases hd), rfl⟩
  intro id d hd
  have h2 := h.1 id d hd
  rw [h.2] at h2
  exact ⟨Int.natCast_nonneg d, h2⟩

/-- Witness for C8 at a concrete run. -/
theorem counts_never_exceed_witness :
    0 ≤ ((1 : Nat) : Int) ∧ ((1 : Nat) : Int) ≤ 1 :=
  counts_never_exceed 1 50 (by decide) [[⟨0, 0, 0, 0⟩], []] 1 1 (by decide)


/-! ### Aging across frames (claim C2) -/

theorem update_dead {t : CentroidTracker} {id : Nat} (hWF : WF t) (hlt : id < t.nextObjectID)
    (hdead : mapGet t.objects id = none) (rs : List Rect) :
    mapGet (update t rs).objects id = none ∧ mapGet (update t rs).disappeared id = none := by
  have hnk : id ∉ keysOf t.objects := not_mem_keysOf_of_get_none hdead
  have hnd : id ∉ keysOf t.disappeared := hWF.2.1 ▸ hnk
  by_cases h0 : t.objects = []
  · obtain ⟨io, idis, -, -, -⟩ := update_no_objects _ rs h0
      ⟨fun i hi => hWF.2.2 i hi, fun i hi => hWF.2.2 i (hWF.2.1 ▸ hi)⟩
    constructor
    · rw [io, mapGet_enumFrom_lt _ _ _ hlt]
    · rw [idis, mapGet_append_of_not_mem_left _ hnd, mapGet_map_const_zero,
        mapGet_enumFrom_lt _ _ _ hlt]
      rfl
  · by_cases hr : rs = []
    · subst hr
      rw [update_nil t hWF.2.1]
      obtain ⟨a, b⟩ := bumpFold_get_not_mem (keysOf t.disappeared) t hnd
      rw [a, b]
      exact ⟨hdead, mapGet_eq_none_of_not_mem hnd⟩
    · exact (updateGeneral_get hWF h0 hr).2.2.2.1 id hlt hnk

theorem update_unmatched_live {t : CentroidTracker} {rs : List Rect} {id : Nat} {c : Point}
    {d : Nat} (hWF : WF t) (hunm : rs = [] ∨ id ∉ matchedIds t rs)
    (hc : mapGet t.objects id = some c) (hd : mapGet t.disappeared id = some d) :
    (((d : Int) + 1 ≤ t.maxDisappeared) →
      mapGet (update t rs).objects id = some c ∧
      mapGet (update t rs).disappeared id = some (d + 1)) ∧
    ((t.maxDisappeared < (d : Int) + 1) →
      mapGet (update t rs).objects id = none ∧
      mapGet (update t rs).disappeared id = none) := by
  have hk : id ∈ keysOf t.objects := (mem_keysOf_iff _ _).mpr ⟨c, hc⟩
  by_cases h0 : t.objects = []
  · rw [h0] at hc
    cases hc
  · by_cases hr : rs = []
    · subst hr
      rw [update_nil t hWF.2.1]
      have hkd : id ∈ keysOf t.disappeared := hWF.2.1 ▸ hk
      have hnd : (keysOf t.disappeared).Nodup := hWF.2.1 ▸ hWF.1
      constructor
      · intro hle
        obtain ⟨a, b⟩ := bumpFold_get_keep (keysOf t.disappeared) t hnd hkd hd hle
        exact ⟨a.trans hc, b⟩
      · intro hgt
        exact bumpFold_get_drop (keysOf t.disappeared) t hnd hkd hd hgt
    · have hnm : id ∉ matchedIds t rs := by
        rcases hunm with h | h
        · exact absurd h hr
        · exact h
      rcases keys_covered rs hk with hm | hu
      · exact absurd hm hnm
      · obtain ⟨r, hrr, hre⟩ := List.mem_map.mp hu
        have heff0 := (updateGeneral_get hWF h0 hr).2.1 r hrr d
        rw [hre] at heff0
        have heff := heff0 hd
        constructor
        · intro hle
          obtain ⟨a, b⟩ := heff.1 hle
          exact ⟨a.trans hc, b⟩
        · exact heff.2

theorem dead_run {id : Nat} : ∀ (frames : List (List Rect)) (t : CentroidTracker),
    WF t → id < t.nextObjectID → mapGet t.objects id = none →
    mapGet (runFrames t frames).objects id = none ∧
    mapGet (runFrames t frames).disappeared id = none := by
  intro frames
  induction frames with
  | nil =>
    intro t hWF hlt hdead
    refine ⟨hdead, ?_⟩
    exact mapGet_eq_none_of_not_mem (hWF.2.1 ▸ not_mem_keysOf_of_get_none hdead)
  | cons rs frames ih =>
    intro t hWF hlt hdead
    obtain ⟨a, -⟩ := update_dead hWF hlt hdead rs
    exact ih (update t rs) (update_WF rs hWF).1
      (lt_of_lt_of_le hlt (update_WF rs hWF).2.1) a

/-- `id` is not matched by the `update` call consuming frame `rs` from state `t`:
either the frame is empty, or `id` is not among the matched object ids. -/
def UnmatchedStep (t : CentroidTracker) (rs : List Rect) (id : Nat) : Prop :=
  rs = [] ∨ id ∉ matchedIds t rs

/-- `id` goes unmatched in every frame of `frames`, along the run from `t`. -/
def UnmatchedRun (id : Nat) : CentroidTracker → List (List Rect) → Prop
  | _, [] => True
  | t, rs :: frames => UnmatchedStep t rs id ∧ UnmatchedRun id (update t rs) frames

theorem aging_run {id : Nat} : ∀ (frames : List (List Rect)) (t : CentroidTracker) (n : Nat),
    WF t → (mapGet t.objects id).isSome = true → mapGet t.disappeared id = some n →
    (n : Int) ≤ t.maxDisappeared → UnmatchedRun id t frames →
    ((mapGet (runFrames t frames).objects id).isSome = true ↔
      (n : Int) + frames.length ≤ t.maxDisappeared) := by
  intro frames
  induction frames with
  | nil =>
    intro t n hWF hs hd hle _
    simp only [runFrames, List.foldl_nil, List.length_nil]
    constructor
    · intro _
      simpa using hle
    · intro _
      exact hs
  | cons rs frames ih =>
    intro t n hWF hs hd hle hrun
    obtain ⟨hstep, hrun2⟩ : UnmatchedStep t rs id ∧ UnmatchedRun id (update t rs) frames := hrun
    obtain ⟨c, hc⟩ := Option.isSome_iff_exists.mp hs
    have heff := update_unmatched_live hWF hstep hc hd
    have hconf := update_WF rs hWF
    have hrf : runFrames t (rs :: frames) = runFrames (update t rs) frames := rfl
    by_cases hcase : (n : Int) + 1 ≤ t.maxDisappeared
    · obtain ⟨a, b⟩ := heff.1 hcase
      have hiter := ih (update t rs) (n + 1) hconf.1 (by rw [a]; rfl) b
        (by rw [hconf.2.2.1]; push_cast; omega) hrun2
      rw [hrf, hiter, hconf.2.2.1, List.length_cons]
      push_cast
      constructor <;> intro h2 <;> omega
    · have hgt : t.maxDisappeared < (n : Int) + 1 := by omega
      obtain ⟨a, b⟩ := heff.2 hgt
      have hlt : id < (update t rs).nextObjectID :=
        lt_of_lt_of_le (hWF.2.2 id ((mem_keysOf_iff _ _).mpr ⟨c, hc⟩)) hconf.2.1
      obtain ⟨hdo, -⟩ := dead_run frames (update t rs) hconf.1 hlt a
      rw [hrf]
      constructor
      · intro h2
        rw [hdo] at h2
        cases h2
      · intro h2
        rw [List.length_cons] at h2
        push_cast at h2
        omega

/-- Claim C2: aging correctness.  For a live object with a fresh (zero) missed count
in a reachable state with positive `max_disappeared`: after going unmatched for
`frames.length` consecutive `update` calls, the object is still present in the
returned mapping iff `frames.length ≤ max_disappeared` — so it survives exactly
`max_disappeared` unmatched frames and is removed on the `max_disappeared + 1`-st. -/
theorem aging_correctness {t : CentroidTracker} {id : Nat} {c : Point} (hWF : WF t)
    (hpos : 0 < t.maxDisappeared) (hc : mapGet t.objects id = some c)
    (h0 : mapGet t.disappeared id = some 0) (frames : List (List Rect))
    (hrun : UnmatchedRun id t frames) :
    (mapGet (runFrames t frames).objects id).isSome = true ↔
      (frames.length : Int) ≤ t.maxDisappeared := by
  have h := aging_run frames t 0 hWF (by rw [hc]; rfl) h0 (by omega) hrun
  simpa using h

/-- The tracker of the spec's Scenario A after frame 1: `max_disappeared = 1`,
`max_distance = 50`, one object id 1 at (10, 10). -/
def wTrackerA : CentroidTracker :=
  { nextObjectID := 2, objects := [(1, (10, 10))], disappeared := [(1, 0)],
    maxDisappeared := 1, maxDistance := 50 }

/-- Witness for C2: Scenario A.  The object survives one empty frame
(`1 ≤ max_disappeared`) and two empty frames remove it (`2 > max_disappeared`). -/
theorem aging_correctness_witness :
    ((mapGet (runFrames wTrackerA [[]]).objects 1).isSome = true ↔
      (([([] : List Rect)].length : Int) ≤ wTrackerA.maxDisappeared)) ∧
    ((mapGet (runFrames wTrackerA [[], []]).objects 1).isSome = true ↔
      (([([] : List Rect), []].length : Int) ≤ wTrackerA.maxDisappeared)) := by
  constructor
  · exact aging_correctness (by decide) (by decide)
      (show mapGet wTrackerA.objects 1 = some (10, 10) by decide) (by decide) [[]]
      (by simp only [UnmatchedRun]; exact ⟨Or.inl rfl, trivial⟩)
  · exact aging_correctness (by decide) (by decide)
      (show mapGet wTrackerA.objects 1 = some (10, 10) by decide) (by decide) [[], []]
      (by simp only [UnmatchedRun]; exact ⟨Or.inl rfl, Or.inl rfl, trivial⟩)


/-! ### Re-association (claim C6) and distance gating (claim C3) -/

/-- Claim C6: after `update`, each input detection is re-associated with the id whose
returned centroid is nearest (by Euclidean distance) to the detection's own centroid,
ties broken by the first minimum encountered while scanning live ids in the engine's
iteration (insertion) order — `IsFirstMin` over the id/distance list in map order. -/
theorem reassociate_nearest (objects : List (Nat × Point)) (rects : List Rect)
    (hne : objects ≠ []) :
    ∀ (j : Nat) (r : Rect), rects[j]? = some r →
      ∃ id d, (reassociate objects rects)[j]? = some (some id) ∧
        IsFirstMin (objects.map (fun p => (p.1, distSq p.2 (centroidOf r)))) (id, d) := by
  intro j r hj
  cases objects with
  | nil => exact absurd rfl hne
  | cons p os =>
    have hpick : pickMin ((p :: os).map (fun q => (q.1, distSq q.2 (centroidOf r)))) =
        some (firstMin (p.1, distSq p.2 (centroidOf r))
          (os.map (fun q => (q.1, distSq q.2 (centroidOf r))))) :=
      pickMin_cons _ _
    refine ⟨(firstMin (p.1, distSq p.2 (centroidOf r))
        (os.map (fun q => (q.1, distSq q.2 (centroidOf r))))).1,
      (firstMin (p.1, distSq p.2 (centroidOf r))
        (os.map (fun q => (q.1, distSq q.2 (centroidOf r))))).2, ?_, ?_⟩
    · have hb : bestTrackId (p :: os) (centroidOf r) =
          some ((firstMin (p.1, distSq p.2 (centroidOf r))
            (os.map (fun q => (q.1, distSq q.2 (centroidOf r))))).1) := by
        simp only [bestTrackId]
        rw [hpick]
        rfl
      rw [reassociate, List.getElem?_map, hj]
      rw [show Option.map (fun r2 => bestTrackId (p :: os) (centroidOf r2)) (some r) =
        some (bestTrackId (p :: os) (centroidOf r)) from rfl, hb]
    · exact firstMin_isFirstMin _ _

/-- Witness for C6 at a concrete state: two objects, one detection. -/
theorem reassociate_nearest_witness :
    ∃ id d,
      (reassociate [(1, ((0 : Int), (0 : Int))), (2, (10, 0))] [⟨5, 0, 5, 0⟩])[0]? =
        some (some id) ∧
      IsFirstMin ([(1, ((0 : Int), (0 : Int))), (2, (10, 0))].map
        (fun p => (p.1, distSq p.2 (centroidOf ⟨5, 0, 5, 0⟩)))) (id, d) :=
  reassociate_nearest [(1, (0, 0)), (2, (10, 0))] [⟨5, 0, 5, 0⟩] (by decide) 0
    ⟨5, 0, 5, 0⟩ rfl

/-- Claim C3: distance gating.  A detection whose centroid is strictly farther than
`max_distance` from every live centroid is never matched: its column never appears in
the committed matches, it is registered under a fresh id (at least the old
`nextObjectID`) carrying its centroid with count 0, and when it is the frame's only
detection every live object's missed count is incremented (or the object removed when
the count would exceed the threshold). -/
theorem distance_gating {t : CentroidTracker} {rects : List Rect} (hWF : WF t)
    (hobj : t.objects ≠ []) (hrects : rects ≠ []) (j : Nat) (c : Point)
    (hj : (inputsOf rects)[j]? = some c)
    (hfar : ∀ o ∈ t.objects.map Prod.snd, gtDist (distSq o c) t.maxDistance = true) :
    j ∉ (matchesOf t rects).map Prod.snd ∧
    (∃ id, t.nextObjectID ≤ id ∧ mapGet (update t rects).objects id = some c ∧
      mapGet (update t rects).disappeared id = some 0) ∧
    (rects.length = 1 → ∀ (id d : Nat), id ∈ keysOf t.objects →
      mapGet t.disappeared id = some d →
      (((d : Int) + 1 ≤ t.maxDisappeared) →
        mapGet (update t rects).disappeared id = some (d + 1)) ∧
      ((t.maxDisappeared < (d : Int) + 1) →
        mapGet (update t rects).objects id = none)) := by
  have hnotm : j ∉ (matchesOf t rects).map Prod.snd := by
    intro hmem
    obtain ⟨rc, hrc, hrce⟩ := List.mem_map.mp hmem
    obtain ⟨h1, h2, o, i, ho, hi, hg⟩ := (matchesOf_strong t rects).1 rc hrc
    rw [hrce] at hi
    rw [show inputsOf rects = rects.map centroidOf from rfl] at hj
    rw [hj] at hi
    cases hi
    have hmem2 : o ∈ t.objects.map Prod.snd := by
      obtain ⟨hlt, rfl⟩ := List.getElem?_eq_some.mp ho
      exact (t.objects.map Prod.snd).getElem_mem hlt
    rw [hfar o hmem2] at hg
    cases hg
  refine ⟨hnotm, ?_, ?_⟩
  · have hjlt : j < (inputsOf rects).length := (List.getElem?_eq_some.mp hj).1
    have hjc : j ∈ uCols t rects := mem_uCols_iff.mpr ⟨hjlt, hnotm⟩
    obtain ⟨k, hk, hke⟩ := List.getElem_of_mem hjc
    have hck : ((uCols t rects).map (fun c2 => (inputsOf rects).getD c2 (0, 0)))[k]? =
        some ((inputsOf rects).getD j (0, 0)) := by
      rw [List.getElem?_map, List.getElem?_eq_getElem hk, hke]
      rfl
    have hgd : (inputsOf rects).getD j (0, 0) = c := by
      rw [List.getD_eq_getElem?_getD, hj]
      rfl
    rw [hgd] at hck
    obtain ⟨a, b⟩ := (updateGeneral_get hWF hobj hrects).2.2.1 k c hck
    exact ⟨t.nextObjectID + k, Nat.le_add_right _ _, a, b⟩
  · intro hlen id d hid hd
    have hms : matchesOf t rects = [] := by
      rw [List.eq_nil_iff_forall_not_mem]
      intro rc hrc
      obtain ⟨h1, h2, o, i, ho, hi, hg⟩ := (matchesOf_strong t rects).1 rc hrc
      have hjlt : j < (inputsOf rects).length := (List.getElem?_eq_some.mp hj).1
      have hjlen : j = 0 := by
        simp only [inputsOf, List.length_map, hlen] at hjlt
        omega
      apply hnotm
      exact List.mem_map.mpr ⟨rc, hrc, by omega⟩
    have hunm : rects = [] ∨ id ∉ matchedIds t rects :=
      Or.inr (by rw [matchedIds, hms]; simp)
    obtain ⟨cobj, hcobj⟩ := (mem_keysOf_iff _ _).mp hid
    have heff := update_unmatched_live hWF hunm hcobj hd
    exact ⟨fun hle => (heff.1 hle).2, fun hgt => (heff.2 hgt).1⟩

/-- The tracker of the spec's Scenario C after frame 1: `max_distance = 10`, one
object id 1 at the origin. -/
def wTrackerC : CentroidTracker :=
  { nextObjectID := 2, objects := [(1, (0, 0))], disappeared := [(1, 0)],
    maxDisappeared := 1, maxDistance := 10 }

/-- Witness for C3: Scenario C.  The detection at (50, 50) is farther than 10 from
the only live centroid (0, 0). -/
theorem distance_gating_witness :
    (0 : Nat) ∉ (matchesOf wTrackerC [⟨50, 50, 50, 50⟩]).map Prod.snd ∧
    (∃ id, wTrackerC.nextObjectID ≤ id ∧
      mapGet (update wTrackerC [⟨50, 50, 50, 50⟩]).objects id = some (50, 50) ∧
      mapGet (update wTrackerC [⟨50, 50, 50, 50⟩]).disappeared id = some 0) ∧
    ([(⟨50, 50, 50, 50⟩ : Rect)].length = 1 → ∀ (id d : Nat),
      id ∈ keysOf wTrackerC.objects →
      mapGet wTrackerC.disappeared id = some d →
      (((d : Int) + 1 ≤ wTrackerC.maxDisappeared) →
        mapGet (update wTrackerC [⟨50, 50, 50, 50⟩]).disappeared id = some (d + 1)) ∧
      ((wTrackerC.maxDisappeared < (d : Int) + 1) →
        mapGet (update wTrackerC [⟨50, 50, 50, 50⟩]).objects id = none)) :=
  distance_gating (by decide) (by decide) (by decide) 0 (50, 50) (by decide) (by decide)


/-! ### Growth of the live set (claim C10) -/

theorem matchedIds_subset_stage2 {t : CentroidTracker} {rects : List Rect} (hWF : WF t) :
    ∀ id ∈ matchedIds t rects, id ∈ keysOf (stage2 t rects).objects := by
  intro id hid
  obtain ⟨rc, hrc, rfl⟩ := List.mem_map.mp hid
  obtain ⟨g1o, g1d⟩ := matchFold_get_matched (keysOf t.objects) (inputsOf rects)
    (matchesOf t rects) t hrc (matchedIds_nodup _ hWF)
  obtain ⟨g2o, g2d⟩ := bumpFold_get_not_mem (uIds t rects) (stage1 t rects)
    (fun hu => uIds_disjoint_matchedIds hWF hu (List.mem_map.mpr ⟨rc, hrc, rfl⟩))
  have hsome : mapGet (stage2 t rects).objects ((keysOf t.objects).getD rc.1 0) =
      some ((inputsOf rects).getD rc.2 (0, 0)) := g2o.trans g1o
  exact (mem_keysOf_iff _ _).mpr ⟨_, hsome⟩

theorem length_filter_not_contains {l : List Nat} {n : Nat} (hnd : l.Nodup)
    (hsub : ∀ c ∈ l, c < n) :
    ((List.range n).filter (fun c => !(l.contains c))).length + l.length = n := by
  have hperm := List.filter_append_perm (fun c => l.contains c) (List.range n)
  have hpos : ((List.range n).filter (fun c => l.contains c)).Perm l := by
    rw [List.perm_ext_iff_of_nodup (List.Nodup.filter _ (List.nodup_range n)) hnd]
    intro a
    simp only [List.mem_filter, List.mem_range, List.elem_iff]
    constructor
    · rintro ⟨-, h⟩
      exact h
    · intro h
      exact ⟨hsub a h, h⟩
  have hlen := hperm.length_eq
  rw [List.length_append, hpos.length_eq, List.length_range] at hlen
  have hsame : ((List.range n).filter (fun c => !(l.contains c))).length =
      ((List.range n).filter (fun c => !(fun c2 => l.contains c2) c)).length := rfl
  omega

/-- Claim C10: the mapping returned by `update rects` contains at least
`rects.length` live objects — each input box is either matched to a distinct
surviving object or registered fresh, and neither kind is deregistered in the same
call; in particular the returned mapping is non-empty whenever `rects` is. -/
theorem update_growth {t : CentroidTracker} (rects : List Rect) (hWF : WF t) :
    rects.length ≤ (update t rects).objects.length ∧
    (rects ≠ [] → (update t rects).objects ≠ []) := by
  have hmain : rects.length ≤ (update t rects).objects.length := by
    by_cases h0 : t.objects = []
    · obtain ⟨io, -, -, -, -⟩ := update_no_objects _ rects h0
        ⟨fun i hi => hWF.2.2 i hi, fun i hi => hWF.2.2 i (hWF.2.1 ▸ hi)⟩
      rw [io, List.enumFrom_length, List.length_map]
    · by_cases hr : rects = []
      · simp [hr]
      · have hupd : update t rects =
            ((uCols t rects).map (fun c => (inputsOf rects).getD c (0, 0))).foldl register
              (stage2 t rects) :=
          ((update_general_case_greedy t rects h0 hr).2).trans (applyGeneral_decomp t rects)
        have hB2 := stage2_Bounded rects hWF
        obtain ⟨io, -, -, -, -⟩ := registerFold
          ((uCols t rects).map (fun c => (inputsOf rects).getD c (0, 0))) (stage2 t rects) hB2
        rw [hupd, io, List.length_append, List.enumFrom_length, List.length_map]
        have h1 : (matchesOf t rects).length ≤ (stage2 t rects).objects.length := by
          have hsp := List.subperm_of_subset (matchedIds_nodup rects hWF)
            (fun id hid => matchedIds_subset_stage2 hWF id hid)
          have hle := hsp.length_le
          rw [matchedIds, List.length_map, keysOf, List.length_map] at hle
          exact hle
        have h2 : (matchesOf t rects).length + (uCols t rects).length = rects.length := by
          have hnd := (matchesOf_strong t rects).2.2
          have hb : ∀ c ∈ (matchesOf t rects).map Prod.snd, c < (inputsOf rects).length := by
            intro c hc
            obtain ⟨rc, hrc, rfl⟩ := List.mem_map.mp hc
            have h2lt := ((matchesOf_strong t rects).1 rc hrc).2.1
            simp only [inputsOf, List.length_map]
            omega
          have hcount := length_filter_not_contains hnd hb
          rw [List.length_map] at hcount
          have hucols : (uCols t rects).length =
              ((List.range (inputsOf rects).length).filter
                (fun c => !(((matchesOf t rects).map Prod.snd).contains c))).length := rfl
          simp only [inputsOf, List.length_map] at hcount hucols
          omega
        omega
  refine ⟨hmain, fun hne hnil => ?_⟩
  rw [hnil] at hmain
  simp only [List.length_nil, Nat.le_zero] at hmain
  exact hne (List.length_eq_zero.mp hmain)

/-- Witness for C10 at a concrete state. -/
theorem update_growth_witness :
    wRects.length ≤ (update wTracker wRects).objects.length ∧
    (wRects ≠ [] → (update wTracker wRects).objects ≠ []) :=
  update_growth wRects (by decide)


/-! ### The input centroids embed into the returned map (towards claim C5) -/

theorem subperm_map {α β : Type} (f : α → β) {l1 l2 : List α} (h : List.Subperm l1 l2) :
    List.Subperm (l1.map f) (l2.map f) := by
  obtain ⟨l, hperm, hsub⟩ := h
  exact ⟨l.map f, hperm.map f, hsub.map f⟩

theorem map_getD_range {α : Type} (l : List α) (d : α) :
    (List.range l.length).map (fun i => l.getD i d) = l := by
  apply List.ext_getElem
  · simp
  · intro i h1 h2
    simp only [List.getElem_map, List.getElem_range]
    exact List.getD_eq_getElem l d h2

theorem mapGet_getD_keys {t : CentroidTracker} (hWF : WF t) {r : Nat}
    (hr : r < t.objects.length) :
    mapGet t.objects ((keysOf t.objects).getD r 0) =
      some ((t.objects.map Prod.snd).getD r (0, 0)) := by
  have h1 : r < (keysOf t.objects).length := by simpa [keysOf] using hr
  have h2 : r < (t.objects.map Prod.snd).length := by simpa using hr
  rw [List.getD_eq_getElem _ 0 h1, List.getD_eq_getElem _ (0, 0) h2]
  have hk : (keysOf t.objects)[r] = (t.objects[r]).1 := by
    simp [keysOf]
  have hv : (t.objects.map Prod.snd)[r] = (t.objects[r]).2 := by
    simp
  rw [hk, hv]
  exact mapGet_of_mem_nodup hWF.1 (t.objects.getElem_mem hr)

theorem inputsSubperm {t : CentroidTracker} (rects : List Rect) (hWF : WF t) :
    List.Subperm (inputsOf rects) ((update t rects).objects.map Prod.snd) := by
  by_cases h0 : t.objects = []
  · obtain ⟨io, -, -, -, -⟩ := update_no_objects _ rects h0
      ⟨fun i hi => hWF.2.2 i hi, fun i hi => hWF.2.2 i (hWF.2.1 ▸ hi)⟩
    rw [io, List.enumFrom_map_snd]
    exact List.Subperm.refl _
  · by_cases hr : rects = []
    · subst hr
      exact List.nil_subperm
    · have hupd : update t rects =
          ((uCols t rects).map (fun c => (inputsOf rects).getD c (0, 0))).foldl register
            (stage2 t rects) :=
        ((update_general_case_greedy t rects h0 hr).2).trans (applyGeneral_decomp t rects)
      have hB2 := stage2_Bounded rects hWF
      obtain ⟨io, -, -, -, -⟩ := registerFold
        ((uCols t rects).map (fun c => (inputsOf rects).getD c (0, 0))) (stage2 t rects) hB2
      obtain ⟨-, -, s2sub, s2n, -, -⟩ := stage2_facts rects hWF
      set g : Nat → Point := fun c => (inputsOf rects).getD c (0, 0) with hg
      -- the per-column owner pairs
      set mPairs : List (Nat × Point) :=
        (matchesOf t rects).map (fun rc => ((keysOf t.objects).getD rc.1 0, g rc.2)) with hmp
      set fPairs : List (Nat × Point) :=
        List.enumFrom (stage2 t rects).nextObjectID ((uCols t rects).map g) with hfp
      have hpairs_sub : ∀ p ∈ mPairs ++ fPairs, p ∈ (update t rects).objects := by
        intro p hp
        rcases List.mem_append.mp hp with h | h
        · obtain ⟨rc, hrc, rfl⟩ := List.mem_map.mp h
          have := ((updateGeneral_get hWF h0 hr).1 rc hrc).1
          exact mapGet_mem this
        · rw [hupd, io]
          exact List.mem_append_right _ h
      have hpairs_nodup : (mPairs ++ fPairs).Nodup := by
        have hknd : (keysOf (mPairs ++ fPairs)).Nodup := by
          rw [keysOf_append]
          apply List.Nodup.append
          · have hkm : keysOf mPairs = matchedIds t rects := by
              simp [hmp, keysOf, matchedIds, List.map_map]
            rw [hkm]
            exact matchedIds_nodup _ hWF
          · rw [hfp, keysOf_enumFrom]
            exact List.nodup_range' _ _
          · intro id hid hid2
            have h1 : id ∈ matchedIds t rects := by
              have hkm : keysOf mPairs = matchedIds t rects := by
                simp [hmp, keysOf, matchedIds, List.map_map]
              rw [← hkm]
              exact hid
            have h2 : t.nextObjectID ≤ id := by
              rw [hfp, keysOf_enumFrom, List.mem_range'_1] at hid2
              rw [s2n] at hid2
              omega
            exact absurd (hWF.2.2 id (matchedIds_subset_keys h1)) (by omega)
        exact List.Nodup.of_map Prod.fst hknd
      have hsp : List.Subperm (mPairs ++ fPairs) (update t rects).objects :=
        List.subperm_of_subset hpairs_nodup hpairs_sub
      have hsnd : List.Subperm ((mPairs ++ fPairs).map Prod.snd)
          ((update t rects).objects.map Prod.snd) := subperm_map _ hsp
      -- (mPairs ++ fPairs).map snd is a permutation of the inputs
      have hperm : ((mPairs ++ fPairs).map Prod.snd).Perm (inputsOf rects) := by
        rw [List.map_append]
        have hm : mPairs.map Prod.snd = ((matchesOf t rects).map Prod.snd).map g := by
          simp [hmp, List.map_map]
        have hf : fPairs.map Prod.snd = (uCols t rects).map g := by
          rw [hfp, List.enumFrom_map_snd]
        rw [hm, hf, ← List.map_append]
        have hcols : (((matchesOf t rects).map Prod.snd) ++ uCols t rects).Perm
            (List.range (inputsOf rects).length) := by
          have hnd := (matchesOf_strong t rects).2.2
          have hfilperm := List.filter_append_perm
            (fun c => ((matchesOf t rects).map Prod.snd).contains c)
            (List.range (inputsOf rects).length)
          have hpos : ((List.range (inputsOf rects).length).filter
              (fun c => ((matchesOf t rects).map Prod.snd).contains c)).Perm
              ((matchesOf t rects).map Prod.snd) := by
            rw [List.perm_ext_iff_of_nodup (List.Nodup.filter _ (List.nodup_range _)) hnd]
            intro a
            simp only [List.mem_filter, List.mem_range, List.elem_iff]
            constructor
            · rintro ⟨-, h⟩
              exact h
            · intro h
              refine ⟨?_, h⟩
              obtain ⟨rc, hrc, rfl⟩ := List.mem_map.mp h
              have := ((matchesOf_strong t rects).1 rc hrc).2.1
              simp only [inputsOf, List.length_map]
              omega
          have h1 : (((matchesOf t rects).map Prod.snd) ++ uCols t rects).Perm
              (((List.range (inputsOf rects).length).filter
                (fun c => ((matchesOf t rects).map Prod.snd).contains c)) ++ uCols t rects) :=
            List.Perm.append_right _ hpos.symm
          refine h1.trans ?_
          rw [show uCols t rects = (List.range (inputsOf rects).length).filter
            (fun x => !(((matchesOf t rects).map Prod.snd).contains x)) from rfl]
          exact hfilperm
        have hmapped := hcols.map g
        have hrange : ((List.range (inputsOf rects).length).map g) = inputsOf rects := by
          rw [hg]
          exact map_getD_range _ _
        rw [hrange] at hmapped
        exact hmapped
      obtain ⟨l, hl1, hl2⟩ := hsnd
      exact ⟨l, hl1.trans hperm, hl2⟩


/-! ### Zero-distance rematching of a repeated frame (claim C5) -/

/-- Indices below `n` that are not yet assigned. -/
def freeIdx (n : Nat) (assigned : List Nat) : List Nat :=
  (List.range n).filter (fun i => !(assigned.contains i))

/-- The centroids sitting at the free indices. -/
def freeVals (ps : List Point) (assigned : List Nat) : List Point :=
  (freeIdx ps.length assigned).map (fun i => ps.getD i (0, 0))

theorem freeIdx_nodup (n : Nat) (assigned : List Nat) : (freeIdx n assigned).Nodup :=
  List.Nodup.filter _ (List.nodup_range n)

theorem mem_freeIdx_iff {n : Nat} {assigned : List Nat} {i : Nat} :
    i ∈ freeIdx n assigned ↔ i < n ∧ i ∉ assigned := by
  simp [freeIdx, List.mem_filter, List.mem_range]

theorem freeIdx_cons (n : Nat) (assigned : List Nat) (x : Nat) :
    freeIdx n (x :: assigned) = (freeIdx n assigned).filter (fun i => !(i == x)) := by
  rw [freeIdx, freeIdx, List.filter_filter]
  apply List.filter_congr
  intro i _
  rw [List.contains_cons, Bool.not_or, Bool.and_comm]

theorem freeIdx_perm_cons {n : Nat} {assigned : List Nat} {x : Nat}
    (hx : x ∈ freeIdx n assigned) :
    (freeIdx n assigned).Perm (x :: freeIdx n (x :: assigned)) := by
  rw [freeIdx_cons]
  have hnd := freeIdx_nodup n assigned
  have herase : (freeIdx n assigned).erase x =
      (freeIdx n assigned).filter (fun i => !(i == x)) := by
    rw [hnd.erase_eq_filter]
    rfl
  rw [← herase]
  exact List.perm_cons_erase hx

theorem freeVals_perm_cons {ps : List Point} {assigned : List Nat} {x : Nat}
    (hx : x < ps.length) (hnx : x ∉ assigned) :
    (freeVals ps assigned).Perm (ps.getD x (0, 0) :: freeVals ps (x :: assigned)) := by
  have hmem : x ∈ freeIdx ps.length assigned := mem_freeIdx_iff.mpr ⟨hx, hnx⟩
  have h := (freeIdx_perm_cons hmem).map (fun i => ps.getD i (0, 0))
  simpa [freeVals] using h

theorem freeVals_nil (ps : List Point) : freeVals ps [] = ps := by
  have h : freeIdx ps.length [] = List.range ps.length := by
    simp [freeIdx]
  rw [freeVals, h, map_getD_range]

theorem greedy_zero (md : Int) (hmd : 0 ≤ md) (rows inputs : List Point) :
    ∀ (fuel : Nat) (aR aC : List Nat),
      aR.Nodup → (∀ r ∈ aR, r < rows.length) → rows.length ≤ fuel + aR.length →
      List.Subperm (freeVals inputs aC) (freeVals rows aR) →
      (∀ c, c < inputs.length → c ∉ aC →
        c ∈ (greedyLoop md (distMatrix rows inputs) fuel aR aC).map Prod.snd) ∧
      ∀ rc ∈ greedyLoop md (distMatrix rows inputs) fuel aR aC,
        ∃ p, rows[rc.1]? = some p ∧ inputs[rc.2]? = some p := by
  intro fuel
  induction fuel with
  | zero =>
    intro aR aC hnd hb hl hsp
    constructor
    · intro c hc hnc
      exfalso
      have hall : ∀ r < rows.length, r ∈ aR := mem_of_nodup_length_le hnd hb (by omega)
      have hre : freeIdx rows.length aR = [] := by
        rw [freeIdx, List.filter_eq_nil_iff]
        intro r hr
        rw [List.mem_range] at hr
        simp [hall r hr]
      have hrv : freeVals rows aR = [] := by
        rw [freeVals, hre]
        rfl
      rw [hrv] at hsp
      have hcv : freeVals inputs aC = [] := List.subperm_nil.mp hsp
      have hcm : inputs.getD c (0, 0) ∈ freeVals inputs aC :=
        List.mem_map.mpr ⟨c, mem_freeIdx_iff.mpr ⟨hc, hnc⟩, rfl⟩
      rw [hcv] at hcm
      cases hcm
    · intro rc hrc
      cases hrc
  | succ fuel ih =>
    intro aR aC hnd hb hl hsp
    have hzero : ∀ c0, c0 < inputs.length → c0 ∉ aC →
        ∃ e0 ∈ unassignedEntries (distMatrix rows inputs) aR aC, e0.2 = 0 := by
      intro c0 hc0 hnc0
      have hcm : inputs.getD c0 (0, 0) ∈ freeVals inputs aC :=
        List.mem_map.mpr ⟨c0, mem_freeIdx_iff.mpr ⟨hc0, hnc0⟩, rfl⟩
      have hrm : inputs.getD c0 (0, 0) ∈ freeVals rows aR := hsp.subset hcm
      obtain ⟨r0, hr0mem, hr0val⟩ := List.mem_map.mp hrm
      obtain ⟨hr0lt, hr0na⟩ := mem_freeIdx_iff.mp hr0mem
      refine ⟨((r0, c0), 0), ?_, rfl⟩
      rw [mem_unassignedEntries_iff]
      refine ⟨?_, hr0na, hnc0⟩
      rw [mem_allEntries_distMatrix_iff]
      refine ⟨rows.getD r0 (0, 0), inputs.getD c0 (0, 0), ?_, ?_, ?_⟩
      · rw [List.getElem?_eq_getElem hr0lt, List.getD_eq_getElem _ _ hr0lt]
      · rw [List.getElem?_eq_getElem hc0, List.getD_eq_getElem _ _ hc0]
      · rw [hr0val]
        exact (distSq_eq_zero_iff.mpr rfl).symm
    cases hp : pickMin (unassignedEntries (distMatrix rows inputs) aR aC) with
    | none =>
      have hemp := (pickMin_eq_none_iff _).mp hp
      rw [greedyLoop_succ_none fuel hp]
      constructor
      · intro c hc hnc
        exfalso
        obtain ⟨e0, he0, -⟩ := hzero c hc hnc
        rw [hemp] at he0
        cases he0
      · intro rc hrc
        cases hrc
    | some e =>
      have hfm := pickMin_isFirstMin hp
      obtain ⟨hA, hraR, hcaC⟩ := mem_unassignedEntries_iff.mp hfm.mem
      obtain ⟨o, i, ho, hi, hv⟩ := mem_allEntries_distMatrix_iff.mp hA
      have hec : e.1.2 < inputs.length := (List.getElem?_eq_some.mp hi).1
      have her : e.1.1 < rows.length := (List.getElem?_eq_some.mp ho).1
      obtain ⟨e0, he0, he0v⟩ := hzero e.1.2 hec hcaC
      have hle : e.2 ≤ e0.2 := hfm.le_of_mem he0
      have hge : 0 ≤ e.2 := hv ▸ distSq_nonneg o i
      have he2 : e.2 = 0 := le_antisymm (he0v ▸ hle) hge
      have hg : gtDist e.2 md = false := by
        rw [he2]
        exact gtDist_zero hmd
      have hoi : o = i := distSq_eq_zero_iff.mp (by omega)
      rw [greedyLoop_succ_step fuel hp hg]
      have hgi : inputs.getD e.1.2 (0, 0) = i := by
        rw [List.getD_eq_getElem?_getD, hi]
        rfl
      have hgo : rows.getD e.1.1 (0, 0) = i := by
        rw [List.getD_eq_getElem?_getD, ho]
        rw [hoi]
        rfl
      have hpc := freeVals_perm_cons hec hcaC
      have hpr := freeVals_perm_cons her hraR
      rw [hgi] at hpc
      rw [hgo] at hpr
      have hsp2 : List.Subperm (freeVals inputs (e.1.2 :: aC))
          (freeVals rows (e.1.1 :: aR)) := by
        have hchain : List.Subperm (i :: freeVals inputs (e.1.2 :: aC))
            (i :: freeVals rows (e.1.1 :: aR)) :=
          (hpc.symm.subperm).trans (hsp.trans hpr.subperm)
        exact (List.subperm_cons i).mp hchain
      have hrec := ih (e.1.1 :: aR) (e.1.2 :: aC)
        (List.nodup_cons.mpr ⟨hraR, hnd⟩)
        (by
          intro r hr
          rcases List.mem_cons.mp hr with h | h
          · exact h ▸ her
          · exact hb r h)
        (by
          simp only [List.length_cons]
          omega)
        hsp2
      constructor
      · intro c hc hnc
        by_cases hce : c = e.1.2
        · rw [List.map_cons]
          exact hce ▸ List.mem_cons_self _ _
        · have hnc2 : c ∉ e.1.2 :: aC := by
            intro hmem
            rcases List.mem_cons.mp hmem with h | h
            · exact hce h
            · exact hnc h
          rw [List.map_cons]
          exact List.mem_cons_of_mem _ (hrec.1 c hc hnc2)
      · intro rc hrc
        rcases List.mem_cons.mp hrc with h | h
        · subst h
          refine ⟨i, ?_, hi⟩
          rw [ho, hoi]
        · exact hrec.2 rc h


theorem repeat_general_zero {t1 : CentroidTracker} {rects : List Rect}
    (hmd : 0 ≤ t1.maxDistance)
    (hsp : List.Subperm (inputsOf rects) (t1.objects.map Prod.snd)) :
    (∀ c, c < (inputsOf rects).length → c ∈ (matchesOf t1 rects).map Prod.snd) ∧
    ∀ rc ∈ matchesOf t1 rects, ∃ p, (t1.objects.map Prod.snd)[rc.1]? = some p ∧
      (inputsOf rects)[rc.2]? = some p := by
  have h := greedy_zero t1.maxDistance hmd (t1.objects.map Prod.snd) (inputsOf rects)
    (distMatrix (t1.objects.map Prod.snd) (inputsOf rects)).length [] []
    List.nodup_nil (by simp) (by simp [distMatrix_length])
    (by rw [freeVals_nil, freeVals_nil]; exact hsp)
  exact ⟨fun c hc => h.1 c hc (List.not_mem_nil c), h.2⟩

theorem repeat_uCols_nil {t1 : CentroidTracker} {rects : List Rect}
    (h : ∀ c, c < (inputsOf rects).length → c ∈ (matchesOf t1 rects).map Prod.snd) :
    uCols t1 rects = [] := by
  rw [uCols, List.filter_eq_nil_iff]
  intro c hc
  rw [List.mem_range] at hc
  simp [h c hc]

/-- Counterexample to claim C5 as stated: with `max_disappeared = 1`,
`max_distance = 50`, after frame [(0,0)] and then frame [(200,200)], repeating the
very same frame [(200,200)] deregisters id 1 — the set of live ids is not unchanged. -/
theorem repeat_frame_counterexample :
    (1 : Nat) ∈ keysOf (update (update (CentroidTracker.init 1 50) [⟨0, 0, 0, 0⟩])
      [⟨200, 200, 200, 200⟩]).objects ∧
    (1 : Nat) ∉ keysOf (update (update (update (CentroidTracker.init 1 50) [⟨0, 0, 0, 0⟩])
      [⟨200, 200, 200, 200⟩]) [⟨200, 200, 200, 200⟩]).objects := by
  decide

/-- Claim C5 (amended): calling `update` again with exactly the previous call's box
list (reachable state, positive thresholds) registers nothing — `nextObjectID` is
unchanged — never grows the live id set, keeps every object the preceding call
matched or registered (missed count 0) alive with unchanged centroid, and leaves
every surviving object's centroid unchanged.  Objects the preceding call left
unmatched keep aging and may be deregistered (see the counterexample). -/
theorem repeat_frame_stable {t : CentroidTracker} (rects : List Rect) (hWF : WF t)
    (hposd : 0 < t.maxDisappeared) (hposm : 0 ≤ t.maxDistance) :
    (update (update t rects) rects).nextObjectID = (update t rects).nextObjectID ∧
    (∀ id ∈ keysOf (update (update t rects) rects).objects,
      id ∈ keysOf (update t rects).objects) ∧
    (∀ id c, mapGet (update t rects).objects id = some c →
      mapGet (update t rects).disappeared id = some 0 →
      mapGet (update (update t rects) rects).objects id = some c) ∧
    (∀ id c, mapGet (update (update t rects) rects).objects id = some c →
      mapGet (update t rects).objects id = some c) := by
  set t1 := update t rects with ht1
  have hWF1 : WF t1 := (update_WF rects hWF).1
  have hmd1 : t1.maxDisappeared = t.maxDisappeared := (update_WF rects hWF).2.2.1
  have hmx1 : t1.maxDistance = t.maxDistance := (update_WF rects hWF).2.2.2
  have hsp := inputsSubperm rects hWF
  by_cases h10 : t1.objects = []
  · have hlen := (update_growth rects hWF).1
    rw [← ht1, h10] at hlen
    have hrnil : rects = [] := List.length_eq_zero.mp (Nat.le_zero.mp (by simpa using hlen))
    subst hrnil
    have ht2 : update t1 [] = t1 := by
      rw [update, if_pos (by simp [h10])]
      rfl
    rw [ht2]
    exact ⟨rfl, fun id h => h, fun id c hc h0 => hc, fun id c hc => hc⟩
  · by_cases hrnil : rects = []
    · subst hrnil
      have ht2 : update t1 [] = (keysOf t1.disappeared).foldl bumpMiss t1 :=
        update_nil t1 hWF1.2.1
      refine ⟨?_, ?_, ?_, ?_⟩
      · rw [ht2]
        exact (bumpFold_config _ _).1
      · intro id hid
        rw [ht2] at hid
        exact (bumpFold_WF (keysOf t1.disappeared) t1 (hWF1.2.1 ▸ hWF1.1)
          (fun j hj => hj) hWF1.1 hWF1.2.1).2.2 id hid
      · intro id c hc h0
        rw [ht2]
        have hkd : id ∈ keysOf t1.disappeared := (mem_keysOf_iff _ _).mpr ⟨0, h0⟩
        obtain ⟨a, -⟩ := bumpFold_get_keep (keysOf t1.disappeared) t1
          (hWF1.2.1 ▸ hWF1.1) hkd h0 (by rw [hmd1]; push_cast; omega)
        exact a.trans hc
      · intro id c hc
        rw [ht2] at hc
        by_cases hid : id ∈ keysOf t1.disappeared
        · obtain ⟨d, hd⟩ := (mem_keysOf_iff _ _).mp hid
          by_cases hcase : (d : Int) + 1 ≤ t1.maxDisappeared
          · obtain ⟨a, -⟩ := bumpFold_get_keep (keysOf t1.disappeared) t1
              (hWF1.2.1 ▸ hWF1.1) hid hd hcase
            rw [a] at hc
            exact hc
          · obtain ⟨a, -⟩ := bumpFold_get_drop (keysOf t1.disappeared) t1
              (hWF1.2.1 ▸ hWF1.1) hid hd (by omega)
            rw [a] at hc
            cases hc
        · obtain ⟨a, -⟩ := bumpFold_get_not_mem (keysOf t1.disappeared) t1 hid
          rw [a] at hc
          exact hc
    · obtain ⟨hall, hzero⟩ := repeat_general_zero (by rw [hmx1]; exact hposm) hsp
      have hunil : uCols t1 rects = [] := repeat_uCols_nil hall
      obtain ⟨hmatched, hunmatched, hfresh, habsent, hnx, hmd2, hmx2⟩ :=
        updateGeneral_get hWF1 h10 hrnil
      have hWF2 : WF (update t1 rects) := (update_WF rects hWF1).1
      have hsub : ∀ id ∈ keysOf (update t1 rects).objects, id ∈ keysOf t1.objects := by
        intro id hid
        by_contra hnotin
        have hge := update_new_ids rects hWF1 id hid hnotin
        have hb2 := hWF2.2.2 id hid
        rw [hnx, hunil] at hb2
        simp only [List.length_nil, Nat.add_zero] at hb2
        omega
      refine ⟨?_, hsub, ?_, ?_⟩
      · rw [hnx, hunil]
        rfl
      · intro id c hc h0
        have hk : id ∈ keysOf t1.objects := (mem_keysOf_iff _ _).mpr ⟨c, hc⟩
        rcases keys_covered rects hk with hm | hu
        · obtain ⟨rc, hrc, hre⟩ := List.mem_map.mp hm
          obtain ⟨a, -⟩ := hmatched rc hrc
          rw [hre] at a
          obtain ⟨p, hrow, hinp⟩ := hzero rc hrc
          have hrc1 : rc.1 < t1.objects.length := ((matchesOf_strong t1 rects).1 rc hrc).1
          have hgetc := mapGet_getD_keys hWF1 hrc1
          rw [hre, hc] at hgetc
          have hceq : c = (t1.objects.map Prod.snd).getD rc.1 (0, 0) :=
            Option.some.inj hgetc
          have hrowD : (t1.objects.map Prod.snd).getD rc.1 (0, 0) = p := by
            rw [List.getD_eq_getElem?_getD, hrow]
            rfl
          have hinpD : (inputsOf rects).getD rc.2 (0, 0) = p := by
            rw [List.getD_eq_getElem?_getD, hinp]
            rfl
          rw [a, hinpD, hceq, hrowD]
        · have heff := update_unmatched_live hWF1
            (Or.inr (fun hm2 => uIds_disjoint_matchedIds hWF1 hu hm2)) hc h0
          exact (heff.1 (by rw [hmd1]; push_cast; omega)).1
      · intro id c hc
        have hk2 : id ∈ keysOf (update t1 rects).objects := (mem_keysOf_iff _ _).mpr ⟨c, hc⟩
        have hk1 : id ∈ keysOf t1.objects := hsub id hk2
        obtain ⟨c1, hc1⟩ := (mem_keysOf_iff _ _).mp hk1
        rcases keys_covered rects hk1 with hm | hu
        · obtain ⟨rc, hrc, hre⟩ := List.mem_map.mp hm
          obtain ⟨a, -⟩ := hmatched rc hrc
          rw [hre] at a
          obtain ⟨p, hrow, hinp⟩ := hzero rc hrc
          have hrc1 : rc.1 < t1.objects.length := ((matchesOf_strong t1 rects).1 rc hrc).1
          have hgetc := mapGet_getD_keys hWF1 hrc1
          rw [hre] at hgetc
          have hinpD : (inputsOf rects).getD rc.2 (0, 0) = p := by
            rw [List.getD_eq_getElem?_getD, hinp]
            rfl
          have hrowD : (t1.objects.map Prod.snd).getD rc.1 (0, 0) = p := by
            rw [List.getD_eq_getElem?_getD, hrow]
            rfl
          rw [a, hinpD] at hc
          have hcp : c = p := (Option.some.inj hc).symm
          rw [hgetc, hrowD, hcp]
        · obtain ⟨d, hd⟩ := (mem_keysOf_iff _ _).mp (hWF1.2.1 ▸ hk1)
          have heff := update_unmatched_live hWF1
            (Or.inr (fun hm2 => uIds_disjoint_matchedIds hWF1 hu hm2)) hc1 hd
          by_cases hcase : (d : Int) + 1 ≤ t1.maxDisappeared
          · obtain ⟨a, -⟩ := heff.1 hcase
            rw [a] at hc
            rw [hc1, ← hc]
          · obtain ⟨a, -⟩ := heff.2 (by omega)
            rw [a] at hc
            cases hc

/-- Witness for the amended C5 at a concrete state. -/
theorem repeat_frame_stable_witness :
    (update (update (CentroidTracker.init 1 50) wRects) wRects).nextObjectID =
      (update (CentroidTracker.init 1 50) wRects).nextObjectID ∧
    (∀ id ∈ keysOf (update (update (CentroidTracker.init 1 50) wRects) wRects).objects,
      id ∈ keysOf (update (CentroidTracker.init 1 50) wRects).objects) ∧
    (∀ id c, mapGet (update (CentroidTracker.init 1 50) wRects).objects id = some c →
      mapGet (update (CentroidTracker.init 1 50) wRects).disappeared id = some 0 →
      mapGet (update (update (CentroidTracker.init 1 50) wRects) wRects).objects id =
        some c) ∧
    (∀ id c,
      mapGet (update (update (CentroidTracker.init 1 50) wRects) wRects).objects id =
        some c →
      mapGet (update (CentroidTracker.init 1 50) wRects).objects id = some c) :=
  repeat_frame_stable wRects (by decide) (by decide) (by decide)

end ObjDet
